import Mathlib

/-!
Verification of the JSP formatter core (`src/formatter.ts`).

Strings are modelled as `List Char`.  JavaScript's `\s` whitespace class is
modelled by the ASCII whitespace characters, `\w` by `[A-Za-z0-9_]`, and
`localeCompare` by code-point lexicographic order.  Each definition is a
direct transcription of the corresponding TypeScript function.
-/

set_option maxRecDepth 100000

namespace JspFmt

/-- Whitespace test modelling JavaScript's `\s` class (ASCII part). -/
def isWSChar (c : Char) : Bool :=
  c == ' ' || c == '\t' || c == '\n' || c == '\r' || c == '\x0b' || c == '\x0c'

/-- Word-character test modelling JavaScript's `\w` class. -/
def isWordChar (c : Char) : Bool :=
  ('a' ≤ c && c ≤ 'z') || ('A' ≤ c && c ≤ 'Z') || ('0' ≤ c && c ≤ '9') || c == '_'

/-- Characters of a string literal, for stating concrete examples. -/
def strL (s : String) : List Char := s.data

/-- Left trim, modelling the leading half of `String.prototype.trim`. -/
def trimL (l : List Char) : List Char := l.dropWhile isWSChar

/-- Right trim, modelling the trailing half of `String.prototype.trim`. -/
def trimR (l : List Char) : List Char := (l.reverse.dropWhile isWSChar).reverse

/-- Both-ends trim, modelling `String.prototype.trim`. -/
def trimStr (l : List Char) : List Char := trimL (trimR l)

/-- All characters that are not whitespace, in order. -/
def removeWS (l : List Char) : List Char := l.filter (fun c => !isWSChar c)

theorem removeWS_append (a b : List Char) :
    removeWS (a ++ b) = removeWS a ++ removeWS b := by
  simp [removeWS]

theorem removeWS_trimL (l : List Char) : removeWS (trimL l) = removeWS l := by
  induction l with
  | nil => rfl
  | cons c t ih =>
    by_cases h : isWSChar c = true
    · simp [trimL, List.dropWhile, h, removeWS] at ih ⊢
      exact ih
    · simp only [Bool.not_eq_true] at h
      simp [trimL, List.dropWhile, h, removeWS]

theorem removeWS_reverse (l : List Char) : removeWS l.reverse = (removeWS l).reverse := by
  simp [removeWS, List.filter_reverse]

theorem removeWS_trimR (l : List Char) : removeWS (trimR l) = removeWS l := by
  have h := removeWS_trimL l.reverse
  calc removeWS (trimR l) = (removeWS (trimL l.reverse)).reverse := by
        simp [trimR, trimL, removeWS_reverse]
    _ = (removeWS l.reverse).reverse := by rw [h]
    _ = removeWS l := by rw [removeWS_reverse, List.reverse_reverse]

theorem removeWS_trimStr (l : List Char) : removeWS (trimStr l) = removeWS l := by
  rw [trimStr, removeWS_trimL, removeWS_trimR]

/- ------------------------------------------------------------------ -/
/- splitStatementsRespectingQuotes                                     -/
/- ------------------------------------------------------------------ -/

/-- State of the character loop of `splitStatementsRespectingQuotes`. -/
structure SplitSt where
  out : List (List Char)
  buf : List Char
  inS : Bool
  inD : Bool
  esc : Bool
  depth : Nat

/-- Quote and parenthesis bookkeeping of one loop iteration of
`splitStatementsRespectingQuotes` (`formatter.ts` lines 83-89): double- and
single-quote toggles (each guarded by the other), then parenthesis depth
(decrement floored at zero, here via truncated subtraction), updated only
outside quotes.  Returns the new `(inSingle, inDouble, parenDepth)`. -/
def quoteStep (st : SplitSt) (ch : Char) : Bool × Bool × Nat :=
  let c1 := !st.inS && ch == '"'
  let inD := if c1 then !st.inD else st.inD
  let inS := if !c1 && !st.inD && ch == '\'' then !st.inS else st.inS
  let depth :=
    if !inS && !inD then
      if ch == '(' then st.depth + 1
      else if ch == ')' then st.depth - 1
      else st.depth
    else st.depth
  (inS, inD, depth)

/-- One iteration of the loop body of `splitStatementsRespectingQuotes`
(`formatter.ts` lines 70-97): escape handling first, then quote/paren
bookkeeping, the character is appended to the buffer, and a top-level
unquoted `;` flushes the trimmed buffer. -/
def splitStep (st : SplitSt) (ch : Char) : SplitSt :=
  if st.esc then { st with buf := st.buf ++ [ch], esc := false }
  else if ch == '\\' then { st with buf := st.buf ++ [ch], esc := true }
  else
    let q := quoteStep st ch
    let buf := st.buf ++ [ch]
    if !q.1 && !q.2.1 && q.2.2 == 0 && ch == ';' then
      { out := st.out ++ [trimStr buf], buf := [], inS := q.1, inD := q.2.1,
        esc := false, depth := q.2.2 }
    else
      { out := st.out, buf := buf, inS := q.1, inD := q.2.1, esc := false, depth := q.2.2 }

/-- Final loop state of `splitStatementsRespectingQuotes` on an input line. -/
def splitStmtsSt (l : List Char) : SplitSt :=
  l.foldl splitStep ⟨[], [], false, false, false, 0⟩

/-- Embedding of `splitStatementsRespectingQuotes` (`formatter.ts` lines 62-100). -/
def splitStatementsRespectingQuotes (l : List Char) : List (List Char) :=
  let st := splitStmtsSt l
  if (trimStr st.buf).isEmpty then st.out else st.out ++ [trimStr st.buf]

theorem splitStep_content (st : SplitSt) (ch : Char) :
    removeWS ((splitStep st ch).out.flatten ++ (splitStep st ch).buf)
      = removeWS (st.out.flatten ++ st.buf) ++ removeWS [ch] := by
  unfold splitStep
  by_cases he : st.esc
  · simp [he, removeWS_append]
  · by_cases hb : (ch == '\\') = true
    · simp [he, hb, removeWS_append]
    · simp only [he, hb, if_false, Bool.false_eq_true]
      split
      · simp [List.flatten_append, removeWS_append, removeWS_trimStr, List.append_assoc]
      · simp [removeWS_append, List.append_assoc]

theorem foldl_splitStep_content (l : List Char) (st : SplitSt) :
    removeWS ((l.foldl splitStep st).out.flatten ++ (l.foldl splitStep st).buf)
      = removeWS (st.out.flatten ++ st.buf) ++ removeWS l := by
  induction l generalizing st with
  | nil => simp [removeWS]
  | cons c t ih =>
    have hstep := splitStep_content st c
    have hsplit : removeWS (c :: t) = removeWS [c] ++ removeWS t := by
      have h : (c :: t) = [c] ++ t := rfl
      rw [h, removeWS_append]
    calc removeWS (((c :: t).foldl splitStep st).out.flatten
            ++ ((c :: t).foldl splitStep st).buf)
        = removeWS ((t.foldl splitStep (splitStep st c)).out.flatten
            ++ (t.foldl splitStep (splitStep st c)).buf) := by rfl
      _ = removeWS ((splitStep st c).out.flatten ++ (splitStep st c).buf) ++ removeWS t :=
          ih (splitStep st c)
      _ = (removeWS (st.out.flatten ++ st.buf) ++ removeWS [c]) ++ removeWS t := by
          rw [hstep]
      _ = removeWS (st.out.flatten ++ st.buf) ++ removeWS (c :: t) := by
          rw [List.append_assoc, hsplit]

theorem trimStr_empty_removeWS {l : List Char} (h : (trimStr l).isEmpty = true) :
    removeWS l = [] := by
  have h2 := removeWS_trimStr l
  rw [List.isEmpty_iff] at h
  rw [h] at h2
  exact h2.symm

/-- C10: implicit content preservation of the statement splitter — the
concatenation of the returned fragments has exactly the input line's
non-whitespace characters, in order (whitespace is only ever trimmed at
fragment boundaries, and a final all-whitespace fragment dropped). -/
theorem C10_split_content_preservation (line : List Char) :
    removeWS (splitStatementsRespectingQuotes line).flatten = removeWS line := by
  unfold splitStatementsRespectingQuotes
  have hfold := foldl_splitStep_content line ⟨[], [], false, false, false, 0⟩
  simp only [List.flatten_nil, List.nil_append, List.append_nil] at hfold
  simp only [splitStmtsSt]
  split
  · rename_i hempty
    have hbuf : removeWS (line.foldl splitStep ⟨[], [], false, false, false, 0⟩).buf = [] :=
      trimStr_empty_removeWS hempty
    rw [removeWS_append, hbuf, List.append_nil] at hfold
    simpa [removeWS] using hfold
  · rw [List.flatten_append, removeWS_append]
    simp only [List.flatten_cons, List.flatten_nil, List.append_nil]
    rw [removeWS_trimStr, ← removeWS_append]
    simpa [removeWS] using hfold

/-- C5: the statement splitter does not split at semicolons inside quoted
literals or inside parentheses: the two specimen lines from the spec split
exactly as the code computes — the quoted `;` and the two `for`-header
semicolons cause no split. -/
theorem C5_quote_and_paren_respecting_split :
    splitStatementsRespectingQuotes (strL "out.println(\";\"); x=1;")
      = [strL "out.println(\";\");", strL "x=1;"]
    ∧ splitStatementsRespectingQuotes (strL "for(i=0;i<10;i++)\x7bx++;\x7d")
      = [strL "for(i=0;i<10;i++)\x7bx++;", strL "\x7d"] := by
  constructor
  · rfl
  · rfl

/- ------------------------------------------------------------------ -/
/- formatJavaPrettyFallback                                            -/
/- ------------------------------------------------------------------ -/

/-- Boolean prefix test on character lists. -/
def startsWithL (pre s : List Char) : Bool := s.take pre.length == pre

/-- Boolean suffix test on character lists. -/
def endsWithL (suf s : List Char) : Bool := s.drop (s.length - suf.length) == suf

/-- Word-boundary test for the position right after a matched keyword:
true when the next character is absent or not a word character. -/
def kwBoundary (rest : List Char) : Bool :=
  match rest.head? with
  | none => true
  | some c => !isWordChar c

/-- Match one literal keyword followed by a `\b` boundary, returning the rest. -/
def tryKw (kw s : List Char) : Option (List Char) :=
  if startsWithL kw s && kwBoundary (s.drop kw.length) then some (s.drop kw.length) else none

/-- Alternatives of the regex `}\s+(else if|else|catch|finally)\b`, tried in order. -/
def braceKws : List (List Char) :=
  [strL "else if", strL "else", strL "catch", strL "finally"]

def kwMatchAux : List (List Char) → List Char → Option (List Char × List Char)
  | [], _ => none
  | kw :: kws, s =>
    match tryKw kw s with
    | some rest => some (kw, rest)
    | none => kwMatchAux kws s

/-- First alternative of `(else if|else|catch|finally)\b` matching at this position. -/
def kwMatch (s : List Char) : Option (List Char × List Char) := kwMatchAux braceKws s

/-- Fueled scan for `code.replace(/}\s+(else if|else|catch|finally)\b/g, "} $1")`
(`formatter.ts` line 120).  Each step consumes at least one character, so
fuel equal to the length suffices; exhausted fuel returns the rest unchanged. -/
def braceJoinF : Nat → List Char → List Char
  | 0, s => s
  | _ + 1, [] => []
  | fuel + 1, c :: rest =>
    if c == '}' then
      let ws := rest.takeWhile isWSChar
      if ws.isEmpty then c :: braceJoinF fuel rest
      else
        match kwMatch (rest.drop ws.length) with
        | some (kw, r3) => '}' :: ' ' :: (kw ++ braceJoinF fuel r3)
        | none => c :: braceJoinF fuel rest
    else c :: braceJoinF fuel rest

/-- Embedding of the brace-pair normalization `replace` of `formatJavaPrettyFallback`. -/
def braceJoin (s : List Char) : List Char := braceJoinF s.length s

/-- Split on newline characters, modelling `String.prototype.split("\n")`. -/
def splitNL : List Char → List (List Char)
  | [] => [[]]
  | c :: rest =>
    if c == '\n' then [] :: splitNL rest
    else
      match splitNL rest with
      | [] => [[c]]
      | l :: ls => (c :: l) :: ls

/-- Join with newline characters, modelling `Array.prototype.join("\n")`. -/
def joinNL (ls : List (List Char)) : List Char := List.intercalate ['\n'] ls

/-- Break a list at its first `:` (used by the lazy `case\b[\s\S]*?:` match). -/
def breakAtColon : List Char → Option (List Char × List Char)
  | [] => none
  | c :: rest =>
    if c == ':' then some ([], rest)
    else (breakAtColon rest).map (fun p => (c :: p.1, p.2))

/-- Second alternative `default:` of the case-label regex. -/
def caseDefaultMatch (l : List Char) : Option (List Char × List Char) :=
  if startsWithL (strL "default:") l then some (strL "default:", l.drop 8) else none

/-- Anchored match of `/^(case\b[\s\S]*?:|default:)\s*([\s\S]*)$/`
(`formatter.ts` line 165), returning the label (with its colon) and the
raw text after the colon.  The lazy body stops at the first colon. -/
def caseMatch (l : List Char) : Option (List Char × List Char) :=
  if startsWithL (strL "case") l && kwBoundary (l.drop 4) then
    match breakAtColon (l.drop 4) with
    | some (mid, rest) => some (strL "case" ++ mid ++ [':'], rest)
    | none => caseDefaultMatch l
  else caseDefaultMatch l

/-- The control-starter keywords of `formatJavaPrettyFallback` (lines 152-162).
Note `switch` is absent. -/
def ctrlKws : List (List Char) :=
  [strL "if", strL "else if", strL "else", strL "for", strL "while", strL "do",
   strL "try", strL "catch", strL "finally"]

/-- Anchored `^kw\b` test of `startsWithAny` (`formatter.ts` line 106). -/
def startsWithKw (kw l : List Char) : Bool :=
  startsWithL kw l && kwBoundary (l.drop kw.length)

/-- Embedding of `startsWithAny(line, controlStarters)`. -/
def startsWithAnyCtrl (l : List Char) : Bool := ctrlKws.any (fun k => startsWithKw k l)

/-- Unanchored test of `/\bswitch\s*\(/`: scans every position carrying the
previous character for the `\b` check. -/
def hasSwitchReAux : Option Char → List Char → Bool
  | _, [] => false
  | prev, c :: rest =>
    ((match prev with | none => true | some p => !isWordChar p)
        && startsWithL (strL "switch") (c :: rest)
        && (((c :: rest).drop 6).dropWhile isWSChar).head? == some '(')
      || hasSwitchReAux (some c) rest

/-- Embedding of the `/\bswitch\s*\(/` test. -/
def hasSwitchRe (l : List Char) : Bool := hasSwitchReAux none l

/-- Test of `/c\s*$/`: the last non-whitespace character is `c`. -/
def lastNonWsIs (c : Char) (l : List Char) : Bool :=
  (l.reverse.dropWhile isWSChar).head? == some c

/-- Test of `/\)\s*[^{;]/`: there is a `)` whose following character exists
and is neither `{` nor `;` (after backtracking, the `\s*` contributes
nothing extra because `{` and `;` are not whitespace). -/
def parenTailTest : List Char → Bool
  | [] => false
  | [_] => false
  | c :: d :: rest =>
    if c == ')' && d != '{' && d != ';' then true else parenTailTest (d :: rest)

/-- Index of the last occurrence of a character, modelling the greedy
`^(.*\))` capture via `lastIndexOf`. -/
def lastIdxOf (c : Char) (l : List Char) : Option Nat :=
  match l.reverse.findIdx? (· == c) with
  | none => none
  | some i => some (l.length - 1 - i)

/-- Scan for the unescaped closing quote `q`, as matched by the greedy body
`([^q\\]|\\.)*` of the string-masking regexes; returns the number of
characters consumed including the closing quote. -/
def findCloseQ (q : Char) : List Char → Option Nat
  | [] => none
  | c :: rest =>
    if c == q then some 1
    else if c == '\\' then
      match rest with
      | [] => none
      | _ :: rest2 => (findCloseQ q rest2).map (· + 2)
    else (findCloseQ q rest).map (· + 1)

/-- Fueled embedding of `replace(/q([^q\\]|\\.)*q/g, 'qsq')`, the
string-literal masking used before brace counting (`formatter.ts`
lines 182-184 and analogues). -/
def maskQuotedF (q : Char) : Nat → List Char → List Char
  | 0, s => s
  | _ + 1, [] => []
  | fuel + 1, c :: rest =>
    if c == q then
      match findCloseQ q rest with
      | some n => q :: 's' :: q :: maskQuotedF q fuel (rest.drop n)
      | none => c :: maskQuotedF q fuel rest
    else c :: maskQuotedF q fuel rest

def maskQuoted (q : Char) (s : List Char) : List Char := maskQuotedF q s.length s

/-- Double-quote masking, then single-quote masking, in source order. -/
def maskStrings (l : List Char) : List Char := maskQuoted '\'' (maskQuoted '"' l)

def countChar (c : Char) (l : List Char) : Nat := (l.filter (· == c)).length

/-- Per-line brace delta `opens - closes` computed on the string-masked line. -/
def braceDelta (l : List Char) : Int :=
  let m := maskStrings l
  (countChar '{' m : Int) - (countChar '}' m : Int)

/-- Embedding of `pushLine` (`formatter.ts` lines 129-132): the rendered
indentation is `Math.max(0, lvl) * tabWidth` spaces before the trimmed text. -/
def pushLineStr (tw : Nat) (lvl : Int) (text : List Char) : List Char :=
  List.replicate ((max lvl 0).toNat * tw) ' ' ++ trimStr text

/-- Test of `/^case\b[\s\S]*:\s*$/` or `/^default:\s*$/` (`looksLikeCaseLabel`). -/
def looksLikeCaseLabel (s : List Char) : Bool :=
  (startsWithL (strL "case") s && kwBoundary (s.drop 4) && lastNonWsIs ':' s)
    || (startsWithL (strL "default:") s && (s.drop 8).all isWSChar)

/-- State of the line loop of `formatJavaPrettyFallback`: the current level
(a JavaScript number, so an unbounded integer), the switch-level stack
(top first), and the emitted lines. -/
structure FState where
  level : Int
  sl : List Int
  out : List (List Char)

/-- One statement of the generic reflow loop (`formatter.ts` lines 257-279):
a leading `}` pops a matching switch level and renders one level shallower
(floored at zero); a non-label statement inside a switch renders one level
deeper. -/
def stmtStep (tw : Nat) (level : Int) (insideSwitch : Bool)
    (acc : List Int × List (List Char)) (stmtRaw : List Char) :
    List Int × List (List Char) :=
  let s := trimStr stmtRaw
  if s.isEmpty then acc
  else
    let sl := acc.1
    let popped :=
      if s.head? == some '}' && sl.head? == some (level - 1) then sl.tail else sl
    let useLevel : Int := if s.head? == some '}' then max (level - 1) 0 else level
    let useLevel := if !looksLikeCaseLabel s && insideSwitch then useLevel + 1 else useLevel
    (popped, acc.2 ++ [pushLineStr tw useLevel s])

/-- Shared tail of the control-header branch (`formatter.ts` lines 228-248):
print the line at the current level; `{`-terminated headers push a switch
level when the header contains `switch(` and increment the level, all other
control lines take the masked brace delta (pushing the switch level first
when `opensSwitch` held). -/
def ctrlNormal (tw : Nat) (line : List Char) (level : Int) (sl : List Int)
    (out : List (List Char)) (opensSwitch hasOpen hasClose : Bool) : FState :=
  let out := out ++ [pushLineStr tw level line]
  if hasOpen && !hasClose then
    { level := level + 1,
      sl := if hasSwitchRe line then level :: sl else sl,
      out := out }
  else
    { level := level + braceDelta line,
      sl := if opensSwitch then level :: sl else sl,
      out := out }

/-- Embedding of one iteration of the line loop of `formatJavaPrettyFallback`
(`formatter.ts` lines 134-293), in source order: trim; blank lines pass
through; a leading `}` pops a matching switch level and decrements the level
(floored); then the case-label branch, the control-header branch (with its
header/tail split), and the generic statement reflow with its unfloored
end-of-line brace delta and final switch-stack cleanup. -/
def processLine (tw : Nat) (st : FState) (rawLine : List Char) : FState :=
  let line := trimStr rawLine
  if line.isEmpty then { st with out := st.out ++ [[]] }
  else
    let sl0 :=
      if line.head? == some '}' && st.sl.head? == some (st.level - 1)
      then st.sl.tail else st.sl
    let level0 := if line.head? == some '}' then max (st.level - 1) 0 else st.level
    let opensSwitch := hasSwitchRe line && line.any (· == '{')
    match caseMatch line with
    | some (labelRaw, tailRaw) =>
      let label := trimStr labelRaw
      let tail := trimStr tailRaw
      let out := st.out ++ [pushLineStr tw level0 label]
      let out := out ++ (splitStatementsRespectingQuotes tail).filterMap
          (fun s => if s.isEmpty then none else some (pushLineStr tw (level0 + 1) s))
      { level := level0 + braceDelta line,
        sl := if opensSwitch then level0 :: sl0 else sl0,
        out := out }
    | none =>
      if startsWithAnyCtrl line then
        let hasOpen := lastNonWsIs '{' line
        let hasClose := lastNonWsIs '}' line
        if !hasOpen && parenTailTest line then
          match lastIdxOf ')' line with
          | some k =>
            let header := trimStr (line.take (k + 1))
            let tail := trimStr (line.drop (k + 1))
            let out := st.out ++ [pushLineStr tw level0 header]
            let out := out ++ (splitStatementsRespectingQuotes tail).filterMap
                (fun s => if s.isEmpty then none else some (pushLineStr tw (level0 + 1) s))
            { level := level0 + braceDelta tail, sl := sl0, out := out }
          | none => ctrlNormal tw line level0 sl0 st.out opensSwitch hasOpen hasClose
        else ctrlNormal tw line level0 sl0 st.out opensSwitch hasOpen hasClose
      else
        let insideSwitch := sl0.head? == some level0
        let acc := (splitStatementsRespectingQuotes line).foldl
            (stmtStep tw level0 insideSwitch) (sl0, st.out)
        let level1 := level0 + braceDelta line
        let sl1 :=
          match acc.1.head? with
          | some t => if t ≥ level1 then acc.1.tail else acc.1
          | none => acc.1
        { level := level1, sl := sl1, out := acc.2 }

/-- Final loop state of `formatJavaPrettyFallback`. -/
def fjpfState (code : List Char) (tw : Nat) : FState :=
  (splitNL (braceJoin code)).foldl (processLine tw) ⟨0, [], []⟩

/-- The emitted lines of `formatJavaPrettyFallback`. -/
def fjpfLines (code : List Char) (tw : Nat) : List (List Char) := (fjpfState code tw).out

/-- Embedding of `formatJavaPrettyFallback` (`formatter.ts` lines 117-296). -/
def formatJavaPrettyFallback (code : List Char) (tw : Nat) : List Char :=
  joinNL (fjpfLines code tw)

/-- Count of leading space characters of an emitted line. -/
def indentOf (l : List Char) : Nat := (l.takeWhile (· == ' ')).length

/-- C2 counterexample: on the single-line input
`switch(x){case 1: y=1; break; default: y=2;}` (with `tabWidth = 2`) the
fallback reformatter emits the four top-level-semicolon fragments all at
indentation 0 — the first fragment even glues the `case 1:` label and its
statement to the `switch` header.  The claim would require the statement
line `break;` to be rendered one level (2 spaces) deeper than the label
line `default: y=2;`; both have indentation 0, so the claim is false. -/
theorem C2_switch_oneline_counterexample :
    fjpfLines (strL "switch(x)\x7bcase 1: y=1; break; default: y=2;\x7d") 2
        = [strL "switch(x)\x7bcase 1: y=1;", strL "break;",
           strL "default: y=2;", strL "\x7d"]
      ∧ ¬ (indentOf (strL "break;") = indentOf (strL "default: y=2;") + 2) :=
  ⟨rfl, by decide⟩

/-- C2 amended: on the single-line input
`switch(x){case 1: y=1; break; default: y=2;}` the fallback reformatter
splits only at top-level semicolons and renders every fragment at the
switch's own indentation level (zero): `case`/`default` labels receive the
label/statement treatment only when they begin a physical input line. -/
theorem C2_switch_oneline_amended :
    formatJavaPrettyFallback (strL "switch(x)\x7bcase 1: y=1; break; default: y=2;\x7d") 2
      = strL "switch(x)\x7bcase 1: y=1;\nbreak;\ndefault: y=2;\n\x7d" := rfl

/-- C3 counterexample: the end-of-line brace adjustment of the generic
reflow path (`level += opens - closes`, `formatter.ts` line 287) is not
floored at zero: after the two-line input `{` `}` the current level is
`-1`, because the leading-`}` decrement (line 147) and the end-of-line
delta both count the same closing brace.  This refutes "currentLevel
remains non-negative" and "the per-line brace-count adjustment is floored
at zero". -/
theorem C3_level_goes_negative_counterexample :
    (fjpfState (strL "\x7b\n\x7d") 2).level = -1 := rfl

/-- Shape of every emitted line: blank, or a whole multiple of `tw` space
characters followed by text with no leading whitespace. -/
def lineOk (tw : Nat) (l : List Char) : Prop :=
  l = [] ∨ ∃ k t, l = List.replicate (k * tw) ' ' ++ t
    ∧ ∀ c, t.head? = some c → isWSChar c = false

/-- All lines of an output buffer are well-shaped. -/
def outOk (tw : Nat) (out : List (List Char)) : Prop := ∀ l ∈ out, lineOk tw l

theorem trimL_head_not_ws : ∀ {l : List Char} {c : Char},
    (trimL l).head? = some c → isWSChar c = false := by
  intro l
  induction l with
  | nil => intro c h; simp [trimL] at h
  | cons a t ih =>
    intro c h
    by_cases ha : isWSChar a = true
    · rw [trimL] at h ih
      simp only [List.dropWhile, ha] at h
      exact ih h
    · rw [trimL] at h
      simp only [List.dropWhile, ha] at h
      simp only [List.head?] at h
      cases h
      simpa using ha

theorem trimStr_head_not_ws {l : List Char} {c : Char}
    (h : (trimStr l).head? = some c) : isWSChar c = false :=
  trimL_head_not_ws (by rw [trimStr] at h; exact h)

theorem pushLineStr_ok (tw : Nat) (lvl : Int) (text : List Char) :
    lineOk tw (pushLineStr tw lvl text) :=
  Or.inr ⟨(max lvl 0).toNat, trimStr text, rfl, fun _ hc => trimStr_head_not_ws hc⟩

theorem outOk_append {tw : Nat} {a b : List (List Char)}
    (ha : outOk tw a) (hb : outOk tw b) : outOk tw (a ++ b) := by
  intro l hl
  rcases List.mem_append.1 hl with h | h
  · exact ha l h
  · exact hb l h

theorem outOk_push {tw : Nat} {out : List (List Char)} {lvl : Int} {text : List Char}
    (h : outOk tw out) : outOk tw (out ++ [pushLineStr tw lvl text]) := by
  refine outOk_append h ?_
  intro l hl
  simp only [List.mem_singleton] at hl
  subst hl
  exact pushLineStr_ok tw lvl text

theorem outOk_blank {tw : Nat} {out : List (List Char)}
    (h : outOk tw out) : outOk tw (out ++ [[]]) := by
  refine outOk_append h ?_
  intro l hl
  simp only [List.mem_singleton] at hl
  subst hl
  exact Or.inl rfl

theorem outOk_filterMap {tw : Nat} {out : List (List Char)} {lvl : Int}
    (parts : List (List Char)) (h : outOk tw out) :
    outOk tw (out ++ parts.filterMap
      (fun s => if s.isEmpty then none else some (pushLineStr tw lvl s))) := by
  refine outOk_append h ?_
  intro l hl
  rcases List.mem_filterMap.1 hl with ⟨a, _, hfa⟩
  by_cases ha : a.isEmpty = true
  · simp [ha] at hfa
  · simp only [ha, if_false, Bool.false_eq_true, Option.some.injEq] at hfa
    subst hfa
    exact pushLineStr_ok tw lvl a

theorem stmtStep_out_ok {tw : Nat} {level : Int} {inside : Bool}
    {acc : List Int × List (List Char)} (s : List Char)
    (h : outOk tw acc.2) : outOk tw (stmtStep tw level inside acc s).2 := by
  unfold stmtStep
  by_cases hs : (trimStr s).isEmpty = true
  · simpa [hs] using h
  · simp only [hs, if_false, Bool.false_eq_true]
    exact outOk_push h

theorem foldl_stmtStep_out_ok {tw : Nat} {level : Int} {inside : Bool} :
    ∀ (parts : List (List Char)) (acc : List Int × List (List Char)),
      outOk tw acc.2 → outOk tw ((parts.foldl (stmtStep tw level inside) acc)).2 := by
  intro parts
  induction parts with
  | nil => intro acc h; exact h
  | cons p t ih =>
    intro acc h
    exact ih (stmtStep tw level inside acc p) (stmtStep_out_ok p h)

theorem ctrlNormal_out_ok {tw : Nat} {line : List Char} {level : Int} {sl : List Int}
    {out : List (List Char)} {a b c : Bool} (h : outOk tw out) :
    outOk tw (ctrlNormal tw line level sl out a b c).out := by
  unfold ctrlNormal
  split
  · exact outOk_push h
  · exact outOk_push h

theorem processLine_out_ok {tw : Nat} (st : FState) (raw : List Char)
    (h : outOk tw st.out) : outOk tw (processLine tw st raw).out := by
  unfold processLine
  by_cases hblank : (trimStr raw).isEmpty = true
  · simpa [hblank] using outOk_blank h
  · simp only [hblank, if_false, Bool.false_eq_true]
    split
    · exact outOk_filterMap _ (outOk_push h)
    · split
      · split
        · split
          · exact outOk_filterMap _ (outOk_push h)
          · exact ctrlNormal_out_ok h
        · exact ctrlNormal_out_ok h
      · exact foldl_stmtStep_out_ok _ _ h

/-- C3 amended: the current level is not floored at zero and can go
negative (see the counterexample), but every line the fallback reformatter
emits is rendered with `Math.max(0, renderLevel) * tabWidth` space
characters of indentation: each output line is either blank, or a whole
multiple of `tabWidth` spaces followed by text that starts with a
non-whitespace character. -/
theorem C3_rendered_indent_amended (code : List Char) (tw : Nat) :
    ∀ l ∈ fjpfLines code tw, lineOk tw l := by
  have main : ∀ (lines : List (List Char)) (st : FState), outOk tw st.out →
      outOk tw (lines.foldl (processLine tw) st).out := by
    intro lines
    induction lines with
    | nil => intro st h; exact h
    | cons x t ih =>
      intro st h
      exact ih (processLine tw st x) (processLine_out_ok st x h)
  have h0 : outOk tw ([] : List (List Char)) := by
    intro l hl
    simp at hl
  exact main (splitNL (braceJoin code)) ⟨0, [], []⟩ h0

/-- Witness for the amended C3 theorem at a concrete input. -/
theorem C3_rendered_indent_amended_witness :
    (strL "x;") ∈ fjpfLines (strL "x;") 2 ∧ lineOk 2 (strL "x;") :=
  ⟨by decide, C3_rendered_indent_amended (strL "x;") 2 (strL "x;") (by decide)⟩

/- ------------------------------------------------------------------ -/
/- stripCommonIndent and the segmenter                                 -/
/- ------------------------------------------------------------------ -/

/-- Blank-line test (`l.trim().length === 0`). -/
def isBlankL (l : List Char) : Bool := (trimStr l).isEmpty

/-- Length of the leading `[ \t]*` run of a line. -/
def leadIndentLen (l : List Char) : Nat :=
  (l.takeWhile (fun c => c == ' ' || c == '\t')).length

/-- Minimum leading-indent length over the non-blank lines, `none` when the
slice has no non-blank line (JavaScript's `Infinity` case). -/
def minIndentOpt (ls : List (List Char)) : Option Nat :=
  ls.foldl
    (fun acc l =>
      if isBlankL l then acc
      else
        match acc with
        | none => some (leadIndentLen l)
        | some m => some (min m (leadIndentLen l)))
    none

/-- Embedding of `stripCommonIndent` (`formatter.ts` lines 23-44): ignore a
blank first/last line, compute the minimal leading indent of the remaining
non-blank lines, and remove that margin (blank interior lines become empty). -/
def stripCommonIndent (text : List Char) : List Char :=
  let lines := splitNL text
  let first : Nat := if isBlankL (lines.headD []) then 1 else 0
  let lastP1 : Nat := lines.length - (if isBlankL (lines.getLastD []) then 1 else 0)
  let slice := (lines.take lastP1).drop first
  match minIndentOpt slice with
  | none => joinNL lines
  | some m =>
    if m == 0 then joinNL lines
    else
      let ded := ((List.range lines.length).zip lines).map
        (fun p =>
          if p.1 < first ∨ lastP1 ≤ p.1 then p.2
          else if isBlankL p.2 then []
          else p.2.drop m)
      joinNL ded

/-- First index of the two-character pattern `a b` in a list (the leftmost
regex match position). -/
def findPair (a b : Char) : List Char → Option Nat
  | [] => none
  | [_] => none
  | x :: y :: rest =>
    if x == a && y == b then some 0
    else (findPair a b (y :: rest)).map (· + 1)

/-- Leftmost-shortest match of `/<%[\s\S]*?%>/`: the first `<%`, closed by
the first `%>` starting at least two characters later.  Returns the match
start and total length. -/
def findJspMatch (s : List Char) : Option (Nat × Nat) :=
  match findPair '<' '%' s with
  | none => none
  | some i =>
    match findPair '%' '>' (s.drop (i + 2)) with
    | none => none
    | some k => some (i, k + 4)

/-- Fueled embedding of `input.split(JSP_BLOCK_RE)`: the pre-match part,
the match, and recursively the rest.  Exhausted fuel returns the rest as
a single part, which keeps the concatenation of parts equal to the input
unconditionally; the top-level fuel `length + 1` is always sufficient. -/
def jspPartsF : Nat → List Char → List (List Char)
  | 0, s => [s]
  | fuel + 1, s =>
    match findJspMatch s with
    | none => [s]
    | some (i, n) => s.take i :: (s.drop i).take n :: jspPartsF fuel (s.drop (i + n))

/-- The parts of `input.split(JSP_BLOCK_RE)` (including empty parts). -/
def jspParts (s : List Char) : List (List Char) := jspPartsF (s.length + 1) s

/-- Typed segments of the document (`Segment` in `formatter.ts`). -/
inductive Seg where
  | html (text : List Char)
  | scriptlet (raw inner : List Char)
  | exprSeg (raw inner : List Char)
  | declSeg (raw inner : List Char)
  | directive (raw inner : List Char)
deriving DecidableEq, Repr

/-- The code-segment test `part.startsWith("<%") && part.endsWith("%>")`. -/
def isCodePart (p : List Char) : Bool :=
  startsWithL (strL "<%") p && endsWithL (strL "%>") p

/-- Role test on the raw delimiter-inclusive part: `/^<%\s*marker/`. -/
def roleAfter (p : List Char) (marker : Char) : Bool :=
  ((p.drop 2).dropWhile isWSChar).head? == some marker

/-- Classification and `inner` extraction of one delimiter-matched part
(`formatter.ts` lines 307-331), with `rawBody = part.slice(2, -2)`. -/
def classifyCode (p : List Char) : Seg :=
  let rawBody := (p.take (p.length - 2)).drop 2
  let trimmed := trimStr rawBody
  if roleAfter p '@' then
    .directive p (trimStr (trimmed.dropWhile (· == '@')))
  else if roleAfter p '=' then
    .exprSeg p (trimR (rawBody.dropWhile (fun c => isWSChar c || c == '=')))
  else if roleAfter p '!' then
    .declSeg p (trimR (stripCommonIndent (rawBody.dropWhile (fun c => isWSChar c || c == '!'))))
  else
    .scriptlet p (trimR (stripCommonIndent trimmed))

/-- Per-part branch of the segment loop: code parts are classified, other
non-empty parts become markup segments, empty parts are dropped. -/
def segOfPart (p : List Char) : Option Seg :=
  if isCodePart p then some (classifyCode p)
  else if p.isEmpty then none else some (.html p)

/-- Embedding of `splitIntoSegments` (`formatter.ts` lines 302-337). -/
def splitIntoSegments (s : List Char) : List Seg :=
  (jspParts s).filterMap segOfPart

/-- Original span of a segment: the markup text or the raw block. -/
def segSpan : Seg → List Char
  | .html t => t
  | .scriptlet r _ => r
  | .exprSeg r _ => r
  | .declSeg r _ => r
  | .directive r _ => r

/-- Two adjacent segments do not split a `<%` or `%>` delimiter pair
across their boundary. -/
def noSplitPair (a b : Seg) : Prop :=
  ¬ ((segSpan a).getLast? = some '<' ∧ (segSpan b).head? = some '%')
    ∧ ¬ ((segSpan a).getLast? = some '%' ∧ (segSpan b).head? = some '>')

theorem segSpan_classifyCode (p : List Char) : segSpan (classifyCode p) = p := by
  unfold classifyCode
  by_cases h1 : roleAfter p '@' = true
  · simp [h1, segSpan]
  · by_cases h2 : roleAfter p '=' = true
    · simp [h1, h2, segSpan]
    · by_cases h3 : roleAfter p '!' = true <;> simp [h1, h2, h3, segSpan]

theorem jspPartsF_flatten : ∀ (fuel : Nat) (s : List Char),
    (jspPartsF fuel s).flatten = s := by
  intro fuel
  induction fuel with
  | zero => intro s; simp [jspPartsF]
  | succ n ih =>
    intro s
    unfold jspPartsF
    cases h : findJspMatch s with
    | none => simp
    | some im =>
      obtain ⟨i, m⟩ := im
      simp only [List.flatten_cons]
      rw [ih]
      have h1 : s.drop (i + m) = (s.drop i).drop m := by
        rw [List.drop_drop, Nat.add_comm]
      rw [h1, List.take_append_drop, List.take_append_drop]

theorem segOfPart_flatten : ∀ (parts : List (List Char)),
    (((parts.filterMap segOfPart).map segSpan)).flatten = parts.flatten := by
  intro parts
  induction parts with
  | nil => rfl
  | cons p t ih =>
    by_cases hc : isCodePart p = true
    · have hsp : segOfPart p = some (classifyCode p) := by
        unfold segOfPart
        rw [hc]
        rfl
      simp only [List.filterMap_cons, hsp, List.map_cons, List.flatten_cons,
        segSpan_classifyCode]
      rw [ih]
    · by_cases he : p.isEmpty = true
      · have hp : p = [] := by simpa [List.isEmpty_iff] using he
        have hsp : segOfPart p = none := by
          unfold segOfPart
          rw [if_neg (by simpa using hc), he]
          rfl
        simp only [List.filterMap_cons, hsp]
        rw [ih, hp]
        rfl
      · have hsp : segOfPart p = some (.html p) := by
          unfold segOfPart
          rw [if_neg (by simpa using hc), if_neg he]
        simp only [List.filterMap_cons, hsp, List.map_cons, List.flatten_cons, segSpan]
        rw [ih]

theorem findPair_drop (a b : Char) : ∀ (l : List Char) (i : Nat),
    findPair a b l = some i → ∃ t, l.drop i = a :: b :: t := by
  intro l
  induction l with
  | nil => intro i h; simp [findPair] at h
  | cons x rest ih =>
    intro i h
    cases rest with
    | nil => simp [findPair] at h
    | cons y r2 =>
      rw [findPair] at h
      by_cases hab : (x == a && y == b) = true
      · simp only [hab, if_true] at h
        cases h
        simp only [Bool.and_eq_true, beq_iff_eq] at hab
        exact ⟨r2, by rw [hab.1, hab.2]; rfl⟩
      · simp only [hab, if_false, Bool.false_eq_true, Option.map_eq_some'] at h
        obtain ⟨j, hj, hji⟩ := h
        obtain ⟨t, ht⟩ := ih j hj
        exact ⟨t, by rw [← hji]; simpa using ht⟩

theorem findJspMatch_shape {s : List Char} {i n : Nat}
    (h : findJspMatch s = some (i, n)) :
    ∃ mid, (s.drop i).take n = '<' :: '%' :: mid ++ ['%', '>'] := by
  unfold findJspMatch at h
  cases h1 : findPair '<' '%' s with
  | none => rw [h1] at h; simp at h
  | some i0 =>
    rw [h1] at h
    dsimp only at h
    cases h2 : findPair '%' '>' (s.drop (i0 + 2)) with
    | none => rw [h2] at h; simp at h
    | some k =>
      rw [h2] at h
      dsimp only at h
      simp only [Option.some.injEq, Prod.mk.injEq] at h
      obtain ⟨hi, hn⟩ := h
      obtain ⟨u, hu⟩ := findPair_drop '<' '%' s i0 h1
      obtain ⟨v, hv⟩ := findPair_drop '%' '>' (s.drop (i0 + 2)) k h2
      have hdu : s.drop (i0 + 2) = u := by
        have hdd : s.drop (i0 + 2) = (s.drop i0).drop 2 := by
          rw [List.drop_drop, Nat.add_comm]
        rw [hdd, hu]
        rfl
      rw [hdu] at hv
      refine ⟨u.take k, ?_⟩
      rw [← hi, hu, ← hn]
      have htake : u.take (k + 2) = u.take k ++ ['%', '>'] := by
        have hta := List.take_add u k 2
        rw [hv] at hta
        simpa using hta
      calc ('<' :: '%' :: u).take (k + 4) = '<' :: '%' :: u.take (k + 2) := by
            have hk4 : k + 4 = (k + 2) + 2 := by omega
            rw [hk4]
            rfl
        _ = '<' :: '%' :: (u.take k ++ ['%', '>']) := by rw [htake]

theorem isCodePart_of_shape {m : List Char} {mid : List Char}
    (h : m = '<' :: '%' :: mid ++ ['%', '>']) : isCodePart m = true := by
  subst h
  unfold isCodePart startsWithL endsWithL
  rw [Bool.and_eq_true]
  refine ⟨?_, ?_⟩
  · rfl
  · have hlen : ('<' :: '%' :: mid ++ ['%', '>'] : List Char).length - (strL "%>").length
        = ('<' :: '%' :: mid).length := by
      simp [strL]
    have hsplit : ('<' :: '%' :: mid ++ ['%', '>'] : List Char)
        = ('<' :: '%' :: mid) ++ ['%', '>'] := by simp
    rw [hlen]
    have := List.drop_left ('<' :: '%' :: mid) ['%', '>']
    simp only [List.cons_append] at this ⊢
    rw [this]
    rfl

theorem codeSeg_head_last {p : List Char} (h : isCodePart p = true) :
    p.head? = some '<' ∧ p.getLast? = some '>' := by
  unfold isCodePart startsWithL endsWithL at h
  rw [Bool.and_eq_true] at h
  obtain ⟨h1, h2⟩ := h
  constructor
  · have h1' : p.take 2 = ['<', '%'] := by simpa [strL] using h1
    have hh := congrArg List.head? h1'
    cases p with
    | nil => simp at h1'
    | cons x r =>
      simp only [List.take, List.head?] at hh
      simpa using hh
  · have h2' : p.drop (p.length - 2) = ['%', '>'] := by
      simpa [strL] using h2
    have hp : p = p.take (p.length - 2) ++ ['%', '>'] := by
      conv_lhs => rw [← List.take_append_drop (p.length - 2) p]
      rw [h2']
    rw [hp]
    rw [List.getLast?_append_of_ne_nil]
    · rfl
    · simp

theorem noSplitPair_of_code_left {a b : Seg}
    (h : (segSpan a).getLast? = some '>') : noSplitPair a b := by
  constructor
  · rintro ⟨h1, -⟩
    rw [h] at h1
    cases h1
  · rintro ⟨h1, -⟩
    rw [h] at h1
    cases h1

theorem noSplitPair_of_code_right {a b : Seg}
    (h : (segSpan b).head? = some '<') : noSplitPair a b := by
  constructor
  · rintro ⟨-, h2⟩
    rw [h] at h2
    cases h2
  · rintro ⟨-, h2⟩
    rw [h] at h2
    cases h2

theorem segsF_chain (fuel : Nat) : ∀ (s : List Char),
    List.Chain' noSplitPair ((jspPartsF fuel s).filterMap segOfPart) := by
  induction fuel with
  | zero =>
    intro s
    unfold jspPartsF
    cases h : segOfPart s with
    | none => simp [List.filterMap, h]
    | some x => simp [List.filterMap, h]
  | succ n ih =>
    intro s
    unfold jspPartsF
    cases h : findJspMatch s with
    | none =>
      cases h2 : segOfPart s with
      | none => simp [List.filterMap, h2]
      | some x => simp [List.filterMap, h2]
    | some im =>
      obtain ⟨i, m⟩ := im
      obtain ⟨mid, hmid⟩ := findJspMatch_shape h
      have hcode : isCodePart ((s.drop i).take m) = true := isCodePart_of_shape hmid
      have hseg : segOfPart ((s.drop i).take m) = some (classifyCode ((s.drop i).take m)) := by
        unfold segOfPart
        rw [hcode]
        rfl
      have hlast : (segSpan (classifyCode ((s.drop i).take m))).getLast? = some '>' := by
        rw [segSpan_classifyCode]
        exact (codeSeg_head_last hcode).2
      have hchain2 : List.Chain' noSplitPair
          (classifyCode ((s.drop i).take m)
            :: (jspPartsF n (s.drop (i + m))).filterMap segOfPart) := by
        refine List.chain'_cons'.2 ⟨?_, ih (s.drop (i + m))⟩
        intro y _
        exact noSplitPair_of_code_left hlast
      simp only [List.filterMap_cons]
      cases h0 : segOfPart (s.take i) with
      | none =>
        rw [hseg]
        exact hchain2
      | some x =>
        rw [hseg]
        refine List.chain'_cons'.2 ⟨?_, hchain2⟩
        intro y hy
        simp only [List.head?_cons, Option.mem_def, Option.some.injEq] at hy
        subst hy
        refine noSplitPair_of_code_right ?_
        rw [segSpan_classifyCode]
        exact (codeSeg_head_last hcode).1

/-- C1: segmenter round trip — concatenating, in order, the markup text of
every `html` segment and the raw delimiter-inclusive span of every code
segment reproduces the input exactly, and no adjacent pair of segments
splits a `<%` or `%>` delimiter pair across its boundary. -/
theorem C1_segmenter_roundtrip (s : List Char) :
    ((splitIntoSegments s).map segSpan).flatten = s
      ∧ List.Chain' noSplitPair (splitIntoSegments s) := by
  constructor
  · unfold splitIntoSegments jspParts
    rw [segOfPart_flatten, jspPartsF_flatten]
  · exact segsF_chain (s.length + 1) s

/- ------------------------------------------------------------------ -/
/- normalizeDirective                                                  -/
/- ------------------------------------------------------------------ -/

/-- Quote-character test of `/["']/`. -/
def isQuoteCh (c : Char) : Bool := c == '"' || c == '\''

/-- Character class `[^\s"'>]` of the unquoted attribute value. -/
def isUnqVal (c : Char) : Bool := !isWSChar c && c != '"' && c != '\'' && c != '>'

/-- Scan up to the next `"`; returns the characters before it and the rest
after it.  This is how the greedy `"([^"]*)"` capture closes. -/
def splitAtQuote : List Char → Option (List Char × List Char)
  | [] => none
  | c :: rest =>
    if c == '"' then some ([], rest)
    else (splitAtQuote rest).map (fun p => (c :: p.1, p.2))

/-- Match of the attribute regex `(\w+)\s*=\s*(?:"([^"]*)"|([^\s"'>]+))` at
the head of the input.  Backtracking never helps here: a shorter `\w+` or
`\s*` run would leave a word or whitespace character where `=` or the value
must start, so the greedy runs are forced, and the quoted alternative is
tried before the unquoted one. -/
def matchAttr (s : List Char) : Option (List Char × List Char × List Char) :=
  if (s.takeWhile isWordChar).isEmpty then none
  else
    match (s.dropWhile isWordChar).dropWhile isWSChar with
    | '=' :: r3 =>
      match r3.dropWhile isWSChar with
      | '"' :: r5 =>
        match splitAtQuote r5 with
        | some (v, r6) => some (s.takeWhile isWordChar, v, r6)
        | none => none
      | r4 =>
        if (r4.takeWhile isUnqVal).isEmpty then none
        else some (s.takeWhile isWordChar, r4.takeWhile isUnqVal, r4.dropWhile isUnqVal)
    | _ => none

/-- Fueled scan of the global `attrRe.exec` loop: try a match at the head,
otherwise advance one character; a match continues after its end.  Every
step consumes at least one character, so fuel equal to the length suffices. -/
def scanPairsF : Nat → List Char → List (List Char × List Char)
  | 0, _ => []
  | _ + 1, [] => []
  | fuel + 1, c :: cs =>
    match matchAttr (c :: cs) with
    | some (k, v, rem) => (k, v) :: scanPairsF fuel rem
    | none => scanPairsF fuel cs

/-- The key/value pairs recognized by the `attrRe` loop of
`normalizeDirective` (`formatter.ts` lines 350-355). -/
def scanPairs (s : List Char) : List (List Char × List Char) := scanPairsF s.length s

/-- Lexicographic code-point order on character lists; models the
deterministic total order used by the `localeCompare` sort comparator. -/
def lexLe : List Char → List Char → Bool
  | [], _ => true
  | _ :: _, [] => false
  | a :: as, b :: bs =>
    if a.toNat < b.toNat then true
    else if b.toNat < a.toNat then false
    else lexLe as bs

/-- Sort relation on attribute pairs: compare the keys. -/
def pairLeR (p q : List Char × List Char) : Prop := lexLe p.1 q.1 = true

instance : DecidableRel pairLeR := fun _ _ => inferInstanceAs (Decidable (_ = true))

theorem lexLe_total : ∀ a b : List Char, lexLe a b = true ∨ lexLe b a = true := by
  intro a
  induction a with
  | nil => intro b; exact Or.inl rfl
  | cons x as ih =>
    intro b
    cases b with
    | nil => exact Or.inr rfl
    | cons y bs =>
      rcases Nat.lt_trichotomy x.toNat y.toNat with h | h | h
      · exact Or.inl (by simp [lexLe, h])
      · rcases ih bs with h2 | h2
        · exact Or.inl (by simp [lexLe, h, h2])
        · exact Or.inr (by simp [lexLe, h.symm, h2])
      · exact Or.inr (by simp [lexLe, h])

theorem lexLe_trans : ∀ a b c : List Char,
    lexLe a b = true → lexLe b c = true → lexLe a c = true := by
  intro a
  induction a with
  | nil => intro b c _ _; rfl
  | cons x as ih =>
    intro b c hab hbc
    cases b with
    | nil => simp [lexLe] at hab
    | cons y bs =>
      cases c with
      | nil => simp [lexLe] at hbc
      | cons z cs =>
        simp only [lexLe] at hab hbc ⊢
        by_cases hxy : x.toNat < y.toNat
        · by_cases hyz : y.toNat < z.toNat
          · simp [show x.toNat < z.toNat from by omega]
          · by_cases hzy : z.toNat < y.toNat
            · simp [hyz, hzy] at hbc
            · simp [show x.toNat < z.toNat from by omega]
        · by_cases hyx : y.toNat < x.toNat
          · simp [hxy, hyx] at hab
          · by_cases hyz : y.toNat < z.toNat
            · simp [show x.toNat < z.toNat from by omega]
            · by_cases hzy : z.toNat < y.toNat
              · simp [hyz, hzy] at hbc
              · have hxz : ¬ x.toNat < z.toNat := by omega
                have hzx : ¬ z.toNat < x.toNat := by omega
                simp only [hxy, hyx, if_false] at hab
                simp only [hyz, hzy, if_false] at hbc
                simp only [hxz, hzx, if_false]
                exact ih bs cs hab hbc

instance : IsTotal (List Char × List Char) pairLeR := ⟨fun a b => lexLe_total a.1 b.1⟩

instance : IsTrans (List Char × List Char) pairLeR :=
  ⟨fun a b c hab hbc => lexLe_trans a.1 b.1 c.1 hab hbc⟩

/-- Rendering of the recognized pairs: `key="value"` joined by single
spaces (`formatter.ts` line 360). -/
def renderAttrs : List (List Char × List Char) → List Char
  | [] => []
  | [kv] => kv.1 ++ '=' :: '"' :: kv.2 ++ ['"']
  | kv :: rest => kv.1 ++ '=' :: '"' :: kv.2 ++ '"' :: ' ' :: renderAttrs rest

/-- The `@`-stripped, trimmed working copy `s` of the directive body
(`formatter.ts` line 344). -/
def dirBody (x : List Char) : List Char := trimStr (x.dropWhile (· == '@'))

/-- The leading-name match `/^(\w+)\s*/` on the working copy: the name and
the remainder after the name and following whitespace; `none` when the
match fails. -/
def dirParse (x : List Char) : Option (List Char × List Char) :=
  if ((dirBody x).takeWhile isWordChar).isEmpty then none
  else some ((dirBody x).takeWhile isWordChar,
    ((dirBody x).dropWhile isWordChar).dropWhile isWSChar)

/-- The attribute pairs `normalizeDirective` recognizes in its input. -/
def directivePairs (x : List Char) : List (List Char × List Char) :=
  match dirParse x with
  | none => []
  | some (_, rest) => scanPairs rest

/-- Embedding of `normalizeDirective` (`formatter.ts` lines 343-362). -/
def normalizeDirective (x : List Char) : List Char :=
  let s := dirBody x
  match dirParse x with
  | none => s
  | some (name, rest) =>
    let pairs := scanPairs rest
    if pairs.isEmpty && rest.any isQuoteCh then s
    else
      let attrs := renderAttrs (List.insertionSort pairLeR pairs)
      if attrs.isEmpty then name else name ++ ' ' :: attrs

/-- Well-formedness of a recognized attribute pair: non-empty word-character
key and a double-quote-free value.  Every pair the scanner produces has this
shape, and it guarantees an exact re-parse of the rendered form. -/
def wfPair (p : List Char × List Char) : Prop :=
  p.1 ≠ [] ∧ (∀ c ∈ p.1, isWordChar c = true) ∧ (∀ c ∈ p.2, c ≠ '"')

theorem isWordChar_not_ws {c : Char} (h : isWordChar c = true) : isWSChar c = false := by
  cases hws : isWSChar c
  · rfl
  · exfalso
    simp only [isWSChar, Bool.or_eq_true, beq_iff_eq] at hws
    rcases hws with ((((rfl | rfl) | rfl) | rfl) | rfl) | rfl <;> exact absurd h (by decide)

theorem isWordChar_ne_at {c : Char} (h : isWordChar c = true) : (c == '@') = false := by
  cases hat : (c == '@')
  · rfl
  · exfalso
    have : c = '@' := by simpa using hat
    subst this
    exact absurd h (by decide)

theorem isUnqVal_ne_quote {c : Char} (h : isUnqVal c = true) : c ≠ '"' := by
  intro hc
  subst hc
  exact absurd h (by decide)

theorem takeWhile_dropWhile_append_neg {p : Char → Bool} {k : List Char} {d : Char}
    {t : List Char} (hk : ∀ c ∈ k, p c = true) (hd : p d = false) :
    (k ++ d :: t).takeWhile p = k ∧ (k ++ d :: t).dropWhile p = d :: t := by
  induction k with
  | nil =>
    constructor
    · simp [List.takeWhile_cons_of_neg, hd]
    · simp [List.dropWhile_cons_of_neg, hd]
  | cons a as ih =>
    have ha : p a = true := hk a (by simp)
    have ih' := ih (fun c hc => hk c (by simp [hc]))
    constructor
    · simpa [List.takeWhile_cons_of_pos ha] using ih'.1
    · simpa [List.dropWhile_cons_of_pos ha] using ih'.2

theorem dropWhile_eq_self_head {p : Char → Bool} {l : List Char}
    (h : ∀ c, l.head? = some c → p c = false) : l.dropWhile p = l := by
  cases l with
  | nil => rfl
  | cons a t => exact List.dropWhile_cons_of_neg (by simp [h a rfl])

theorem trimL_eq_self {l : List Char}
    (h : ∀ c, l.head? = some c → isWSChar c = false) : trimL l = l :=
  dropWhile_eq_self_head h

theorem trimR_eq_self {l : List Char}
    (h : ∀ c, l.getLast? = some c → isWSChar c = false) : trimR l = l := by
  unfold trimR
  rw [dropWhile_eq_self_head, List.reverse_reverse]
  intro c hc
  exact h c (by rwa [← List.head?_reverse])

theorem trimStr_eq_self {l : List Char}
    (hh : ∀ c, l.head? = some c → isWSChar c = false)
    (hl : ∀ c, l.getLast? = some c → isWSChar c = false) : trimStr l = l := by
  unfold trimStr
  rw [trimR_eq_self hl, trimL_eq_self hh]

theorem splitAtQuote_append {v r : List Char} (hv : ∀ c ∈ v, c ≠ '"') :
    splitAtQuote (v ++ '"' :: r) = some (v, r) := by
  induction v with
  | nil => simp [splitAtQuote]
  | cons a as ih =>
    have ha : (a == '"') = false := by
      have := hv a (by simp)
      simpa using this
    have ih' := ih (fun c hc => hv c (by simp [hc]))
    simp [splitAtQuote, ha, ih']

theorem splitAtQuote_some : ∀ {l v r : List Char}, splitAtQuote l = some (v, r) →
    l = v ++ '"' :: r ∧ ∀ c ∈ v, c ≠ '"' := by
  intro l
  induction l with
  | nil => intro v r h; simp [splitAtQuote] at h
  | cons a t ih =>
    intro v r h
    by_cases ha : (a == '"') = true
    · rw [splitAtQuote, if_pos ha] at h
      simp only [Option.some.injEq, Prod.mk.injEq] at h
      obtain ⟨h1, h2⟩ := h
      subst h1
      subst h2
      have ha' : a = '"' := by simpa using ha
      subst ha'
      exact ⟨rfl, by simp⟩
    · rw [splitAtQuote, if_neg (by simpa using ha)] at h
      cases hs : splitAtQuote t with
      | none => rw [hs] at h; simp at h
      | some p =>
        rw [hs] at h
        obtain ⟨v0, r0⟩ := p
        simp only [Option.map_some', Option.some.injEq, Prod.mk.injEq] at h
        obtain ⟨hv, hr⟩ := h
        obtain ⟨ht, hq⟩ := ih hs
        subst hr
        constructor
        · rw [← hv]
          simp [ht]
        · intro c hc
          rw [← hv] at hc
          rcases List.mem_cons.1 hc with rfl | hc2
          · simpa using ha
          · exact hq c hc2

theorem matchAttr_render {k v tail : List Char} (hk : k ≠ [])
    (hkw : ∀ c ∈ k, isWordChar c = true) (hv : ∀ c ∈ v, c ≠ '"') :
    matchAttr (k ++ '=' :: '"' :: v ++ '"' :: tail) = some (k, v, tail) := by
  obtain ⟨ht, hd⟩ := takeWhile_dropWhile_append_neg (p := isWordChar) (k := k)
    (d := '=') (t := '"' :: (v ++ '"' :: tail)) hkw (by decide)
  have hke : k.isEmpty = false := by
    cases k with
    | nil => exact absurd rfl hk
    | cons _ _ => rfl
  have hassoc : (k ++ '=' :: '"' :: v ++ '"' :: tail)
      = k ++ '=' :: ('"' :: (v ++ '"' :: tail)) := by simp
  rw [hassoc]
  unfold matchAttr
  rw [ht, hd, hke]
  simp only [Bool.false_eq_true, if_false]
  rw [List.dropWhile_cons_of_neg (by decide)]
  show (match List.dropWhile isWSChar ('"' :: (v ++ '"' :: tail)) with
    | '"' :: r5 =>
      (match splitAtQuote r5 with
        | some (v, r6) => some (k, v, r6)
        | none => none)
    | r4 =>
      if (List.takeWhile isUnqVal r4).isEmpty = true then none
      else some (k, List.takeWhile isUnqVal r4, List.dropWhile isUnqVal r4))
    = some (k, v, tail)
  rw [List.dropWhile_cons_of_neg (by decide)]
  show (match splitAtQuote (v ++ '"' :: tail) with
    | some (v, r6) => some (k, v, r6)
    | none => none) = some (k, v, tail)
  rw [splitAtQuote_append hv]

theorem matchAttr_space (R : List Char) : matchAttr (' ' :: R) = none := by
  unfold matchAttr
  rw [List.takeWhile_cons_of_neg (by decide)]
  rfl

theorem matchAttr_some {s k v rem : List Char}
    (h : matchAttr s = some (k, v, rem)) :
    k ≠ [] ∧ (∀ c ∈ k, isWordChar c = true) ∧ (∀ c ∈ v, c ≠ '"')
      ∧ rem.length < s.length := by
  unfold matchAttr at h
  by_cases hw : (s.takeWhile isWordChar).isEmpty = true
  · rw [if_pos hw] at h
    simp at h
  · rw [if_neg hw] at h
    have hk0 : s.takeWhile isWordChar ≠ [] := by
      intro hnil
      exact hw (by rw [hnil]; rfl)
    have hlen0 : (s.takeWhile isWordChar).length + (s.dropWhile isWordChar).length
        = s.length := by
      have hc := congrArg List.length (List.takeWhile_append_dropWhile (p := isWordChar) (l := s))
      rw [List.length_append] at hc
      exact hc
    have hpos : 0 < (s.takeWhile isWordChar).length := List.length_pos.2 hk0
    have hlen1 : ((s.dropWhile isWordChar).dropWhile isWSChar).length
        ≤ (s.dropWhile isWordChar).length :=
      (List.dropWhile_sublist _).length_le
    have hkprop : (∀ c ∈ s.takeWhile isWordChar, isWordChar c = true) :=
      fun _ hc => List.mem_takeWhile_imp hc
    split at h
    · rename_i r3 he
      have hlen2 : r3.length + 1 ≤ (s.dropWhile isWordChar).length := by
        have := congrArg List.length he
        simp only [List.length_cons] at this
        omega
      have hlen3 : (r3.dropWhile isWSChar).length ≤ r3.length :=
        (List.dropWhile_sublist _).length_le
      split at h
      · rename_i r5 hr5
        have hlen4 : r5.length + 1 ≤ r3.length := by
          have := congrArg List.length hr5
          simp only [List.length_cons] at this
          omega
        split at h
        · rename_i v0 r6 hq
          obtain ⟨hkk, hvv, hrr⟩ : s.takeWhile isWordChar = k ∧ v0 = v ∧ r6 = rem := by
            simpa using h
          obtain ⟨hshape, hnq⟩ := splitAtQuote_some hq
          refine ⟨by rw [← hkk]; exact hk0,
            fun c hc => hkprop c (by rw [hkk]; exact hc), ?_, ?_⟩
          · intro c hc
            exact hnq c (by rw [hvv]; exact hc)
          · have hr5len : r5.length = v0.length + (1 + r6.length) := by
              rw [hshape]
              simp only [List.length_append, List.length_cons]
              omega
            subst hrr
            omega
        · simp at h
      · rename_i hne
        by_cases hve : ((r3.dropWhile isWSChar).takeWhile isUnqVal).isEmpty = true
        · rw [if_pos hve] at h
          simp at h
        · rw [if_neg hve] at h
          obtain ⟨hkk, hvv, hrr⟩ : s.takeWhile isWordChar = k
              ∧ (r3.dropWhile isWSChar).takeWhile isUnqVal = v
              ∧ (r3.dropWhile isWSChar).dropWhile isUnqVal = rem := by
            simpa using h
          have hv0 : (r3.dropWhile isWSChar).takeWhile isUnqVal ≠ [] := by
            intro hnil
            exact hve (by rw [hnil]; rfl)
          have hvpos : 0 < ((r3.dropWhile isWSChar).takeWhile isUnqVal).length :=
            List.length_pos.2 hv0
          have hlen5 : ((r3.dropWhile isWSChar).takeWhile isUnqVal).length
              + ((r3.dropWhile isWSChar).dropWhile isUnqVal).length
              = (r3.dropWhile isWSChar).length := by
            have hc := congrArg List.length
              (List.takeWhile_append_dropWhile (p := isUnqVal) (l := r3.dropWhile isWSChar))
            rw [List.length_append] at hc
            exact hc
          refine ⟨by rw [← hkk]; exact hk0,
            fun c hc => hkprop c (by rw [hkk]; exact hc), ?_, ?_⟩
          · intro c hc
            exact isUnqVal_ne_quote (List.mem_takeWhile_imp (by rw [hvv]; exact hc))
          · subst hrr
            omega
    · simp at h

theorem scanPairsF_nil : ∀ fuel, scanPairsF fuel [] = [] := by
  intro fuel
  cases fuel <;> rfl

theorem scanPairsF_fuel_aux : ∀ (n fuel : Nat) (s : List Char), fuel ≤ n →
    s.length ≤ fuel → scanPairsF fuel s = scanPairs s := by
  intro n
  induction n with
  | zero =>
    intro fuel s hf hs
    have hf0 : fuel = 0 := Nat.le_zero.1 hf
    subst hf0
    have hs0 : s = [] := List.length_eq_zero.1 (Nat.le_zero.1 hs)
    subst hs0
    rfl
  | succ n ih =>
    intro fuel s hf hs
    cases fuel with
    | zero =>
      have hs0 : s = [] := List.length_eq_zero.1 (Nat.le_zero.1 hs)
      subst hs0
      rfl
    | succ f =>
      cases s with
      | nil => rw [scanPairsF_nil]; rfl
      | cons c cs =>
        have hcs : cs.length + 1 ≤ f + 1 := by simpa using hs
        show scanPairsF (f + 1) (c :: cs) = scanPairsF (c :: cs).length (c :: cs)
        cases hm : matchAttr (c :: cs) with
        | some kvr =>
          obtain ⟨k0, v0, rem⟩ := kvr
          have hrem : rem.length < cs.length + 1 := by
            have := (matchAttr_some hm).2.2.2
            simpa using this
          simp only [scanPairsF, hm, List.length_cons]
          congr 1
          have h1 : scanPairsF f rem = scanPairs rem :=
            ih f rem (by omega) (by omega)
          have h2 : scanPairsF cs.length rem = scanPairs rem :=
            ih cs.length rem (by omega) (by omega)
          rw [h1, h2]
        | none =>
          simp only [scanPairsF, hm, List.length_cons]
          have h1 : scanPairsF f cs = scanPairs cs := ih f cs (by omega) (by omega)
          have h2 : scanPairsF cs.length cs = scanPairs cs :=
            ih cs.length cs (by omega) (by omega)
          rw [h1, h2]

theorem scanPairsF_fuel (fuel : Nat) (s : List Char) (hs : s.length ≤ fuel) :
    scanPairsF fuel s = scanPairs s :=
  scanPairsF_fuel_aux fuel fuel s (Nat.le_refl _) hs

theorem scanPairsF_wf : ∀ (fuel : Nat) (s : List Char) (p : List Char × List Char),
    p ∈ scanPairsF fuel s → wfPair p := by
  intro fuel
  induction fuel with
  | zero => intro s p hp; simp [scanPairsF] at hp
  | succ f ih =>
    intro s p hp
    cases s with
    | nil => simp [scanPairsF] at hp
    | cons c cs =>
      cases hm : matchAttr (c :: cs) with
      | some kvr =>
        obtain ⟨k0, v0, rem⟩ := kvr
        simp only [scanPairsF, hm] at hp
        rcases List.mem_cons.1 hp with rfl | hp2
        · obtain ⟨h1, h2, h3, _⟩ := matchAttr_some hm
          exact ⟨h1, h2, h3⟩
        · exact ih rem p hp2
      | none =>
        simp only [scanPairsF, hm] at hp
        exact ih cs p hp

theorem scanPairs_wf (s : List Char) (p : List Char × List Char)
    (hp : p ∈ scanPairs s) : wfPair p := scanPairsF_wf s.length s p hp

theorem renderAttrs_cons (k v : List Char) (rest : List (List Char × List Char)) :
    renderAttrs ((k, v) :: rest)
      = k ++ '=' :: ('"' :: (v ++ '"' ::
          (if rest.isEmpty then [] else ' ' :: renderAttrs rest))) := by
  cases rest with
  | nil => simp [renderAttrs]
  | cons r rs => simp [renderAttrs]

theorem renderAttrs_ne_nil (kv : List Char × List Char)
    (rest : List (List Char × List Char)) : renderAttrs (kv :: rest) ≠ [] := by
  obtain ⟨k, v⟩ := kv
  rw [renderAttrs_cons]
  simp

theorem scanPairs_space_cons (R : List Char) : scanPairs (' ' :: R) = scanPairs R := by
  show scanPairsF (' ' :: R).length (' ' :: R) = _
  simp only [List.length_cons, scanPairsF, matchAttr_space]
  rfl

theorem scanPairs_render : ∀ (ps : List (List Char × List Char)),
    (∀ p ∈ ps, wfPair p) → scanPairs (renderAttrs ps) = ps := by
  intro ps
  induction ps with
  | nil => intro _; rfl
  | cons kv rest ih =>
    intro hwf
    obtain ⟨k, v⟩ := kv
    obtain ⟨hk, hkw, hv⟩ := hwf (k, v) (by simp)
    have hrest : ∀ p ∈ rest, wfPair p := fun p hp => hwf p (by simp [hp])
    have hmatch : matchAttr (renderAttrs ((k, v) :: rest))
        = some (k, v, if rest.isEmpty then [] else ' ' :: renderAttrs rest) := by
      rw [renderAttrs_cons]
      have hassoc : (k ++ '=' :: ('"' :: (v ++ '"' ::
              (if rest.isEmpty then [] else ' ' :: renderAttrs rest))))
          = k ++ '=' :: '"' :: v ++ '"' ::
              (if rest.isEmpty then [] else ' ' :: renderAttrs rest) := by simp
      rw [hassoc]
      exact matchAttr_render hk hkw hv
    cases hks : k with
    | nil => exact absurd hks hk
    | cons a ks =>
      subst hks
      have hshape : renderAttrs ((a :: ks, v) :: rest)
          = a :: (ks ++ '=' :: ('"' :: (v ++ '"' ::
              (if rest.isEmpty then [] else ' ' :: renderAttrs rest)))) := by
        rw [renderAttrs_cons]
        rfl
      rw [hshape] at hmatch ⊢
      show scanPairsF _ _ = _
      simp only [List.length_cons, scanPairsF, hmatch]
      congr 1
      have hlen : (if rest.isEmpty then ([] : List Char)
          else ' ' :: renderAttrs rest).length
          ≤ (ks ++ '=' :: ('"' :: (v ++ '"' ::
              (if rest.isEmpty then [] else ' ' :: renderAttrs rest)))).length := by
        simp only [List.length_append, List.length_cons]
        omega
      rw [scanPairsF_fuel _ _ hlen]
      cases rest with
      | nil => rfl
      | cons r2 rs2 =>
        simp only [List.isEmpty_cons, if_false, Bool.false_eq_true]
        rw [scanPairs_space_cons]
        exact ih hrest

theorem renderAttrs_getLast : ∀ (ps : List (List Char × List Char)), ps ≠ [] →
    (renderAttrs ps).getLast? = some '"' := by
  intro ps
  induction ps with
  | nil => intro h; exact absurd rfl h
  | cons kv rest ih =>
    intro _
    obtain ⟨k, v⟩ := kv
    cases rest with
    | nil =>
      have hshape : renderAttrs [(k, v)] = (k ++ '=' :: '"' :: v) ++ ['"'] := by
        simp [renderAttrs]
      rw [hshape, List.getLast?_concat]
    | cons r2 rs2 =>
      have hshape : renderAttrs ((k, v) :: r2 :: rs2)
          = (k ++ '=' :: '"' :: v ++ ['"', ' ']) ++ renderAttrs (r2 :: rs2) := by
        simp [renderAttrs]
      rw [hshape,
        List.getLast?_append_of_ne_nil _ (renderAttrs_ne_nil r2 rs2)]
      exact ih (by simp)

theorem renderAttrs_head {k v : List Char} {rest : List (List Char × List Char)}
    {a : Char} {ks : List Char} (hks : k = a :: ks) :
    (renderAttrs ((k, v) :: rest)).head? = some a := by
  subst hks
  rw [renderAttrs_cons]
  rfl

theorem head_append_of_cons {a : Char} {ks z : List Char} :
    ((a :: ks) ++ z).head? = some a := rfl

/-- C7 amended: when the leading-name match succeeds but no attribute pair
is recognized and a quote character is present in the remainder, the
normalizer returns the `@`-stripped, whitespace-trimmed working copy of its
input unchanged (and, being a total function, never raises).  The claim's
"returns its input unchanged" fails exactly by this stripping: see the
counterexample. -/
theorem C7_unparseable_attrs_passthrough (x name rest : List Char)
    (hp : dirParse x = some (name, rest))
    (hpairs : scanPairs rest = [])
    (hq : rest.any isQuoteCh = true) :
    normalizeDirective x = dirBody x := by
  unfold normalizeDirective
  rw [hp]
  simp [hpairs, hq]

/-- Witness for the amended C7 theorem at a concrete input. -/
theorem C7_unparseable_attrs_passthrough_witness :
    dirParse (strL "@page x'") = some (strL "page", strL "x'")
      ∧ scanPairs (strL "x'") = []
      ∧ (strL "x'").any isQuoteCh = true
      ∧ normalizeDirective (strL "@page x'") = dirBody (strL "@page x'") :=
  ⟨by decide, by decide, by decide,
    C7_unparseable_attrs_passthrough (strL "@page x'") (strL "page") (strL "x'")
      (by decide) (by decide) (by decide)⟩

/-- C7 counterexample: the segmenter turns the document `<%@ @page x' %>`
into a directive segment whose body is `@page x'`; that body satisfies the
claim's premises (name token parses, no attribute pair is recognized, a
quote is present after the name), yet `normalizeDirective` returns
`page x'`, not the body unchanged: the leading `@` is stripped before the
conservative-no-op branch returns. -/
theorem C7_passthrough_counterexample :
    splitIntoSegments (strL "<%@ @page x' %>")
        = [Seg.directive (strL "<%@ @page x' %>") (strL "@page x'")]
      ∧ dirParse (strL "@page x'") = some (strL "page", strL "x'")
      ∧ scanPairs (strL "x'") = []
      ∧ (strL "x'").any isQuoteCh = true
      ∧ normalizeDirective (strL "@page x'") = strL "page x'"
      ∧ normalizeDirective (strL "@page x'") ≠ strL "@page x'" :=
  ⟨by decide, by decide, by decide, by decide, by decide, by decide⟩

/-- C6: directive normalization is idempotent on every input in which at
least one `key=value` attribute pair is recognized: the rendered output
`name k1="v1" ... kn="vn"` re-parses to exactly the same sorted pair list,
and sorting a sorted list with the total transitive key order is the
identity. -/
theorem C6_normalize_idempotent (x : List Char) (hp : directivePairs x ≠ []) :
    normalizeDirective (normalizeDirective x) = normalizeDirective x := by
  cases hdp : dirParse x with
  | none =>
    have h0 : directivePairs x = [] := by unfold directivePairs; rw [hdp]
    exact absurd h0 hp
  | some nr =>
    obtain ⟨name, rest⟩ := nr
    have hpairs : scanPairs rest ≠ [] := by
      have h0 : directivePairs x = scanPairs rest := by unfold directivePairs; rw [hdp]
      rwa [h0] at hp
    have hname_eq : (dirBody x).takeWhile isWordChar = name ∧ name ≠ [] := by
      unfold dirParse at hdp
      by_cases hne : ((dirBody x).takeWhile isWordChar).isEmpty = true
      · rw [if_pos hne] at hdp
        simp at hdp
      · rw [if_neg hne] at hdp
        simp only [Option.some.injEq, Prod.mk.injEq] at hdp
        refine ⟨hdp.1, ?_⟩
        intro h0
        rw [← hdp.1] at h0
        exact hne (by rw [h0]; rfl)
    obtain ⟨hneq, hnne⟩ := hname_eq
    have hnw : ∀ c ∈ name, isWordChar c = true :=
      fun c hc => List.mem_takeWhile_imp (hneq ▸ hc)
    have hpe : (scanPairs rest).isEmpty = false := by
      cases hps : scanPairs rest with
      | nil => exact absurd hps hpairs
      | cons _ _ => rfl
    have hsortne : List.insertionSort pairLeR (scanPairs rest) ≠ [] := by
      intro h0
      have hlen := List.length_insertionSort pairLeR (scanPairs rest)
      rw [h0] at hlen
      exact hpairs (List.length_eq_zero.1 hlen.symm)
    obtain ⟨kv0, rest0, hsc⟩ : ∃ kv0 rest0,
        List.insertionSort pairLeR (scanPairs rest) = kv0 :: rest0 := by
      cases hsc : List.insertionSort pairLeR (scanPairs rest) with
      | nil => exact absurd hsc hsortne
      | cons a b => exact ⟨a, b, rfl⟩
    have hwf_sorted : ∀ p ∈ List.insertionSort pairLeR (scanPairs rest), wfPair p :=
      fun p hps => scanPairs_wf rest p ((List.mem_insertionSort pairLeR).1 hps)
    have hkv0 : wfPair kv0 := hwf_sorted kv0 (by rw [hsc]; simp)
    obtain ⟨a0, ks0, ha0⟩ : ∃ a0 ks0, kv0.1 = a0 :: ks0 := by
      cases hk : kv0.1 with
      | nil => exact absurd hk hkv0.1
      | cons a b => exact ⟨a, b, rfl⟩
    have hR := renderAttrs_getLast (List.insertionSort pairLeR (scanPairs rest)) hsortne
    have hRhead : (renderAttrs (List.insertionSort pairLeR (scanPairs rest))).head?
        = some a0 := by
      rw [hsc]
      have : kv0 = (kv0.1, kv0.2) := rfl
      rw [this, ha0] at hsc ⊢
      exact renderAttrs_head rfl
    have hRne : renderAttrs (List.insertionSort pairLeR (scanPairs rest)) ≠ [] := by
      rw [hsc]
      exact renderAttrs_ne_nil _ _
    have hRe : (renderAttrs (List.insertionSort pairLeR (scanPairs rest))).isEmpty
        = false := by
      cases hx : renderAttrs (List.insertionSort pairLeR (scanPairs rest)) with
      | nil => exact absurd hx hRne
      | cons _ _ => rfl
    have ha0w : isWordChar a0 = true := hkv0.2.1 a0 (by rw [ha0]; simp)
    have hnorm : normalizeDirective x
        = name ++ ' ' :: renderAttrs (List.insertionSort pairLeR (scanPairs rest)) := by
      unfold normalizeDirective
      rw [hdp]
      simp only [hpe, Bool.false_and, Bool.false_eq_true, if_false, hRe]
    rw [hnorm]
    -- Second pass on y := name ++ ' ' :: attrs.
    have hheady : (name ++ ' ' :: renderAttrs (List.insertionSort pairLeR
        (scanPairs rest))).head? = name.head? := by
      cases hnm : name with
      | nil => exact absurd hnm hnne
      | cons b bs => rfl
    have hhead_facts : ∀ c, (name ++ ' ' :: renderAttrs (List.insertionSort pairLeR
        (scanPairs rest))).head? = some c → isWordChar c = true := by
      intro c hc
      rw [hheady] at hc
      cases hnm : name with
      | nil => exact absurd hnm hnne
      | cons b bs =>
        rw [hnm] at hc
        simp only [List.head?_cons, Option.some.injEq] at hc
        subst hc
        exact hnw _ (by rw [hnm]; simp)
    have hlasty : (name ++ ' ' :: renderAttrs (List.insertionSort pairLeR
        (scanPairs rest))).getLast? = some '"' := by
      rw [List.getLast?_append_of_ne_nil _ (by simp)]
      have hcons : (' ' :: renderAttrs (List.insertionSort pairLeR (scanPairs rest)))
          = [' '] ++ renderAttrs (List.insertionSort pairLeR (scanPairs rest)) := rfl
      rw [hcons, List.getLast?_append_of_ne_nil _ hRne]
      exact hR
    have hdirBody_y : dirBody (name ++ ' ' :: renderAttrs (List.insertionSort pairLeR
        (scanPairs rest))) = name ++ ' ' :: renderAttrs (List.insertionSort pairLeR
        (scanPairs rest)) := by
      unfold dirBody
      rw [dropWhile_eq_self_head (p := (· == '@'))
        (fun c hc => isWordChar_ne_at (hhead_facts c hc))]
      exact trimStr_eq_self
        (fun c hc => isWordChar_not_ws (hhead_facts c hc))
        (fun c hc => by
          rw [hlasty] at hc
          cases hc
          decide)
    obtain ⟨htw, hdw⟩ := takeWhile_dropWhile_append_neg (p := isWordChar)
      (k := name) (d := ' ')
      (t := renderAttrs (List.insertionSort pairLeR (scanPairs rest))) hnw (by decide)
    have hdrop_ws : ((' ' :: renderAttrs (List.insertionSort pairLeR
        (scanPairs rest))).dropWhile isWSChar)
        = renderAttrs (List.insertionSort pairLeR (scanPairs rest)) := by
      rw [List.dropWhile_cons_of_pos (by decide)]
      refine dropWhile_eq_self_head ?_
      intro c hc
      rw [hRhead] at hc
      cases hc
      exact isWordChar_not_ws ha0w
    have hnameE : name.isEmpty = false := by
      cases hnm : name with
      | nil => exact absurd hnm hnne
      | cons _ _ => rfl
    have hdirParse_y : dirParse (name ++ ' ' :: renderAttrs (List.insertionSort pairLeR
        (scanPairs rest))) = some (name, renderAttrs (List.insertionSort pairLeR
        (scanPairs rest))) := by
      unfold dirParse
      rw [hdirBody_y, htw, hdw, hdrop_ws, hnameE]
      simp
    have hscan_y : scanPairs (renderAttrs (List.insertionSort pairLeR (scanPairs rest)))
        = List.insertionSort pairLeR (scanPairs rest) :=
      scanPairs_render _ hwf_sorted
    have hSorted : List.Sorted pairLeR (List.insertionSort pairLeR (scanPairs rest)) :=
      List.sorted_insertionSort pairLeR (scanPairs rest)
    have hidem : List.insertionSort pairLeR (List.insertionSort pairLeR (scanPairs rest))
        = List.insertionSort pairLeR (scanPairs rest) := hSorted.insertionSort_eq
    have hpe2 : (List.insertionSort pairLeR (scanPairs rest)).isEmpty = false := by
      rw [hsc]
      rfl
    unfold normalizeDirective
    rw [hdirParse_y]
    simp only [hscan_y, hpe2, Bool.false_and, Bool.false_eq_true, if_false, hidem, hRe]

/-- Witness for the C6 idempotence theorem at a concrete input with two
recognized attribute pairs. -/
theorem C6_normalize_idempotent_witness :
    directivePairs (strL "page b=\"2\" a=\"1\"") ≠ []
      ∧ normalizeDirective (normalizeDirective (strL "page b=\"2\" a=\"1\""))
        = normalizeDirective (strL "page b=\"2\" a=\"1\"") :=
  ⟨by decide, C6_normalize_idempotent (strL "page b=\"2\" a=\"1\"") (by decide)⟩

/- ------------------------------------------------------------------ -/
/- Placeholder splicing                                                -/
/- ------------------------------------------------------------------ -/

/-- First index of the pattern as a contiguous substring, modelling
`String.prototype.indexOf`. -/
def findSub (pat : List Char) : List Char → Option Nat
  | [] => if startsWithL pat [] then some 0 else none
  | c :: rest =>
    if startsWithL pat (c :: rest) then some 0
    else (findSub pat rest).map (· + 1)

/-- Substring test derived from `findSub`. -/
def containsSub (pat s : List Char) : Bool := (findSub pat s).isSome

/-- Start of the line containing position `idx`
(`lastIndexOf("\n", idx - 1) + 1`). -/
def lineStartAt (s : List Char) (idx : Nat) : Nat :=
  idx - ((s.take idx).reverse.takeWhile (fun c => c != '\n')).length

/-- End of the line containing position `idx` (`indexOf("\n", idx)`, or the
length when there is no further newline). -/
def lineEndAt (s : List Char) (idx : Nat) : Nat :=
  idx + ((s.drop idx).takeWhile (fun c => c != '\n')).length

/-- Embedding of `getIndentAt`: the leading `[\t ]*` run of the text
between the line start and `idx`. -/
def getIndentAt (s : List Char) (idx : Nat) : List Char :=
  ((s.take idx).drop (lineStartAt s idx)).takeWhile (fun c => c == ' ' || c == '\t')

/-- Leading-indentation strip `replace(/^[\t ]+/, "")` of one line. -/
def stripLead (l : List Char) : List Char := l.dropWhile (fun c => c == ' ' || c == '\t')

/-- Embedding of `applyBlockIndentPerRole` (`formatter.ts` lines 461-483):
a single-line block becomes `baseIndent` plus the de-indented line; in a
multi-line block the first and last lines get `baseIndent` and interior
lines get `baseIndent` plus `blockIndentSpaces` extra spaces. -/
def applyBlockIndentPerRole (blockRaw baseIndent : List Char)
    (blockIndentSpaces : Nat) : List Char :=
  match splitNL blockRaw with
  | [l] => baseIndent ++ stripLead l
  | lines =>
    joinNL (((List.range lines.length).zip lines).map (fun p =>
      if p.1 == 0 || p.1 == lines.length - 1 then baseIndent ++ stripLead p.2
      else baseIndent ++ List.replicate blockIndentSpaces ' ' ++ stripLead p.2))

/-- The replacement block before the leading-newline adjustment: every line
of the raw block is de-indented, then the per-role indentation is applied
with the base indent found at the marker. -/
def builtBlock (whole blockRaw : List Char) (idx k : Nat) : List Char :=
  applyBlockIndentPerRole (joinNL ((splitNL blockRaw).map stripLead))
    (getIndentAt whole idx) k

/-- Embedding of `replaceElementTokenWithBlock` (`formatter.ts` lines
486-514): locate the marker, build the indented block, prepend a newline
when the two characters right before the marker are `%>` and the block does
not already start with a newline, and splice the block over the marker's
entire line span. -/
def replaceElementTokenWithBlock (whole token blockRaw : List Char) (k : Nat) :
    List Char :=
  match findSub token whole with
  | none => whole
  | some idx =>
    whole.take (lineStartAt whole idx)
      ++ (if endsWithL (strL "%>") ((whole.take idx).drop (idx - 2))
            && !(startsWithL (strL "\n") (builtBlock whole blockRaw idx k))
          then '\n' :: builtBlock whole blockRaw idx k
          else builtBlock whole blockRaw idx k)
      ++ whole.drop (lineEndAt whole idx)

/-- C4 counterexample: for the buffer `  <p>hi M</p>` with marker `M` and
the single-line replacement `<%= x %>`, the splice replaces the marker's
entire line: only the leading whitespace survives as the base indent, and
the other content on the marker's line (`<p>hi`, `</p>`) is deleted — it
does not survive the splice, refuting the claim's "inline placement is
preserved". -/
theorem C4_inline_preserved_counterexample :
    replaceElementTokenWithBlock (strL "  <p>hi M</p>") (strL "M") (strL "<%= x %>") 4
        = strL "  <%= x %>"
      ∧ containsSub (strL "hi") (strL "  <p>hi M</p>") = true
      ∧ containsSub (strL "hi")
          (replaceElementTokenWithBlock (strL "  <p>hi M</p>") (strL "M")
            (strL "<%= x %>") 4) = false :=
  ⟨by decide, by decide, by decide⟩

theorem splitNL_no_nl {l : List Char} (h : '\n' ∉ l) : splitNL l = [l] := by
  induction l with
  | nil => rfl
  | cons c rest ih =>
    have hc : (c == '\n') = false := by
      simp only [List.mem_cons, not_or] at h
      simpa using fun he => h.1 he.symm
    have hrest : '\n' ∉ rest := by
      simp only [List.mem_cons, not_or] at h
      exact h.2
    rw [splitNL, if_neg (by simp [hc]), ih hrest]

theorem stripLead_no_nl {l : List Char} (h : '\n' ∉ l) : '\n' ∉ stripLead l :=
  fun hmem => h (List.dropWhile_subset _ hmem)

theorem stripLead_idem (l : List Char) : stripLead (stripLead l) = stripLead l := by
  refine dropWhile_eq_self_head ?_
  intro c hc
  have h2 := List.head?_dropWhile_not (fun c => c == ' ' || c == '\t') l
  unfold stripLead at hc
  rw [hc] at h2
  simpa using h2

theorem joinNL_single (l : List Char) : joinNL [l] = l := by
  simp [joinNL, List.intercalate]

/-- C4 amended: when the marker is found and the replacement block is a
single line, the splice yields: text before the marker's line, then (after
the possible adjacent-block newline) the base indent found before the
marker followed by the de-indented block, then the text after the marker's
line — the whole marker line is replaced, so content on it other than its
leading indentation does not survive; the multi-line interior-indent
structure is skipped. -/
theorem C4_single_line_splice_amended (whole token blockRaw : List Char) (k idx : Nat)
    (hfind : findSub token whole = some idx)
    (hnl : '\n' ∉ blockRaw) :
    replaceElementTokenWithBlock whole token blockRaw k
      = whole.take (lineStartAt whole idx)
        ++ (if endsWithL (strL "%>") ((whole.take idx).drop (idx - 2))
              && !(startsWithL (strL "\n")
                    (getIndentAt whole idx ++ stripLead blockRaw))
            then '\n' :: (getIndentAt whole idx ++ stripLead blockRaw)
            else getIndentAt whole idx ++ stripLead blockRaw)
        ++ whole.drop (lineEndAt whole idx) := by
  have hbuilt : builtBlock whole blockRaw idx k
      = getIndentAt whole idx ++ stripLead blockRaw := by
    unfold builtBlock
    rw [splitNL_no_nl hnl]
    simp only [List.map_cons, List.map_nil]
    rw [joinNL_single]
    unfold applyBlockIndentPerRole
    rw [splitNL_no_nl (stripLead_no_nl hnl)]
    show getIndentAt whole idx ++ stripLead (stripLead blockRaw)
      = getIndentAt whole idx ++ stripLead blockRaw
    rw [stripLead_idem]
  unfold replaceElementTokenWithBlock
  rw [hfind]
  dsimp only
  rw [hbuilt]

/-- Witness for the amended C4 theorem at a concrete input. -/
theorem C4_single_line_splice_amended_witness :
    findSub (strL "M") (strL "  <p>hi M</p>") = some 8
      ∧ '\n' ∉ strL "<%= x %>"
      ∧ replaceElementTokenWithBlock (strL "  <p>hi M</p>") (strL "M")
          (strL "<%= x %>") 4
        = (strL "  <p>hi M</p>").take (lineStartAt (strL "  <p>hi M</p>") 8)
          ++ (if endsWithL (strL "%>")
                  (((strL "  <p>hi M</p>").take 8).drop (8 - 2))
                && !(startsWithL (strL "\n")
                      (getIndentAt (strL "  <p>hi M</p>") 8 ++ stripLead (strL "<%= x %>")))
              then '\n' :: (getIndentAt (strL "  <p>hi M</p>") 8
                  ++ stripLead (strL "<%= x %>"))
              else getIndentAt (strL "  <p>hi M</p>") 8 ++ stripLead (strL "<%= x %>"))
          ++ (strL "  <p>hi M</p>").drop (lineEndAt (strL "  <p>hi M</p>") 8) :=
  ⟨by decide, by decide,
    C4_single_line_splice_amended (strL "  <p>hi M</p>") (strL "M")
      (strL "<%= x %>") 4 8 (by decide) (by decide)⟩

theorem startsWith_nl_head {l : List Char}
    (h : startsWithL (strL "\n") l = true) : l.head? = some '\n' := by
  cases l with
  | nil => simp [startsWithL, strL] at h
  | cons c rest =>
    have : c = '\n' := by
      simpa [startsWithL, strL, List.take] using h
    rw [this]
    rfl

/-- C8 amended (mechanism): when the marker is found and the two characters
immediately before it are `%>`, the spliced replacement starts with a line
break — either freshly inserted or already present — so the block begins on
a new line; the text before the marker's line start (which excludes the
`%>` itself, since `%>` sits on the marker's own line) is kept verbatim.
The end-to-end "two adjacent blocks end up on separate lines" consequence
fails: see the counterexample, where the second marker shares the first
marker's line and is destroyed by the first splice. -/
theorem C8_adjacent_marker_newline (whole token blockRaw : List Char) (k idx : Nat)
    (hfind : findSub token whole = some idx)
    (hprev : (whole.take idx).drop (idx - 2) = strL "%>") :
    ∃ b, replaceElementTokenWithBlock whole token blockRaw k
        = whole.take (lineStartAt whole idx) ++ b ++ whole.drop (lineEndAt whole idx)
      ∧ b.head? = some '\n' := by
  unfold replaceElementTokenWithBlock
  rw [hfind]
  dsimp only
  rw [hprev]
  cases hs : startsWithL (strL "\n") (builtBlock whole blockRaw idx k) with
  | false =>
    refine ⟨'\n' :: builtBlock whole blockRaw idx k, ?_, rfl⟩
    rw [if_pos]
    decide
  | true =>
    refine ⟨builtBlock whole blockRaw idx k, ?_, startsWith_nl_head hs⟩
    rw [if_neg]
    decide

/-- Witness for the C8 mechanism theorem at a concrete input. -/
theorem C8_adjacent_marker_newline_witness :
    findSub (strL "T") (strL "a%>T") = some 3
      ∧ ((strL "a%>T").take 3).drop (3 - 2) = strL "%>"
      ∧ ∃ b, replaceElementTokenWithBlock (strL "a%>T") (strL "T") (strL "b") 0
          = (strL "a%>T").take (lineStartAt (strL "a%>T") 3) ++ b
            ++ (strL "a%>T").drop (lineEndAt (strL "a%>T") 3)
        ∧ b.head? = some '\n' :=
  ⟨by decide, by decide,
    C8_adjacent_marker_newline (strL "a%>T") (strL "T") (strL "b") 0 3
      (by decide) (by decide)⟩

/- ------------------------------------------------------------------ -/
/- External code formatter and the document pipeline                   -/
/- ------------------------------------------------------------------ -/

/-- The three wrap modes of `tryFormatJavaFragment`. -/
inductive JMode where
  | scriptletM
  | declM
  | exprM
deriving DecidableEq, Repr

/-- Model of the external Java plugin collaborator: `importOk = false`
models a failing `import("prettier-plugin-java")`, and `fmt` models
`prettier.format` on the wrapped fragment, with `none` for a thrown
exception.  Both failure paths are caught by the single `try`/`catch`. -/
structure JavaPlugin where
  importOk : Bool
  fmt : List Char → Option (List Char)

/-- Brace-depth scan from just after the opening brace of the synthetic
method; returns the characters before the matching closing brace. -/
def scanDepth : List Char → Nat → List Char → Option (List Char)
  | [], _, _ => none
  | c :: rest, depth, acc =>
    if c == '{' then scanDepth rest (depth + 1) (acc ++ [c])
    else if c == '}' then
      if depth == 1 then some acc
      else scanDepth rest (depth - 1) (acc ++ [c])
    else scanDepth rest depth (acc ++ [c])

/-- Embedding of `extractMethodBody` (`formatter.ts` lines 368-388). -/
def extractMethodBody (formatted sig : List Char) : Option (List Char) :=
  match findSub sig formatted with
  | none => none
  | some sigIdx =>
    match findSub ['{'] (formatted.drop sigIdx) with
    | none => none
    | some rel => (scanDepth (formatted.drop (sigIdx + rel + 1)) 1 []).map trimStr

/-- The synthetic class wrapper for declaration fragments. -/
def wrapDecl (code : List Char) : List Char :=
  strL "class __J \x7b " ++ code ++ strL " \x7d"

/-- The synthetic class-and-method wrapper for scriptlet fragments. -/
def wrapScriptlet (code : List Char) : List Char :=
  strL "class __J \x7b void __m() \x7b " ++ code ++ strL " \x7d \x7d"

/-- Embedding of `tryFormatJavaFragment` (`formatter.ts` lines 392-438) with
the process-wide `disableJavaPluginForThisRun` flag threaded explicitly:
a set flag short-circuits to `null` without consulting the plugin; any
caught failure (import or format) sets the flag.  The `tabWidth`/`useTabs`
options are only forwarded to the collaborator and are absorbed into the
already-configured `fmt` function. -/
def tryFormatJavaFragmentE (pl : JavaPlugin) (mode : JMode) (code : List Char)
    (flag : Bool) : Option (List Char) × Bool :=
  if flag then (none, true)
  else if !pl.importOk then (none, true)
  else
    match mode with
    | .exprM => (some (trimStr code), false)
    | .declM =>
      match pl.fmt (wrapDecl code) with
      | none => (none, true)
      | some formatted =>
        match formatted.findIdx? (· == '{'), lastIdxOf '}' formatted with
        | some op, some cl =>
          if op < cl then (some (trimStr ((formatted.take cl).drop (op + 1))), false)
          else (some (trimStr code), false)
        | _, _ => (some (trimStr code), false)
    | .scriptletM =>
      match pl.fmt (wrapScriptlet code) with
      | none => (none, true)
      | some formatted =>
        match extractMethodBody formatted (strL "void __m()") with
        | some body => (some body, false)
        | none => (some (trimStr code), false)

/-- The `jspFormatter.javaFormat` configuration values. -/
inductive JavaFormatMode where
  | auto
  | indentOnly
  | off
deriving DecidableEq, Repr

/-- Embedding of the `Options` record. -/
structure OptionsE where
  tabWidth : Nat
  useTabs : Bool
  javaFormat : JavaFormatMode
  blockIndent : Nat

/-- The marker token `<jspfmt data-i="N"></jspfmt>` for placeholder `N`. -/
def placeholderOf (i : Nat) : List Char :=
  strL "<jspfmt data-i=\"" ++ Nat.toDigits 10 i ++ strL "\"></jspfmt>"

/-- Per-segment replacement text and flag update of the splice loop of
`formatJspDocument` (`formatter.ts` lines 559-622). -/
def segBlock (pl : JavaPlugin) (opts : OptionsE) (seg : Seg) (flag : Bool) :
    List Char × Bool :=
  match seg with
  | .html t => (t, flag)
  | .directive _ inner => (strL "<%@ " ++ normalizeDirective inner ++ strL " %>", flag)
  | .exprSeg _ inner => (strL "<%= " ++ trimStr inner ++ strL " %>", flag)
  | .declSeg _ inner =>
    match opts.javaFormat with
    | .off => (strL "<%! " ++ inner ++ strL " %>", flag)
    | .indentOnly =>
      (strL "<%!\n" ++ formatJavaPrettyFallback (stripCommonIndent inner) opts.tabWidth
        ++ strL "\n%>", flag)
    | .auto =>
      let r := tryFormatJavaFragmentE pl .declM (stripCommonIndent inner) flag
      (match r.1 with
        | some j => strL "<%!\n" ++ j ++ strL "\n%>"
        | none => strL "<%!\n"
            ++ formatJavaPrettyFallback (stripCommonIndent inner) opts.tabWidth
            ++ strL "\n%>", r.2)
  | .scriptlet _ inner =>
    match opts.javaFormat with
    | .off => (strL "<% " ++ inner ++ strL " %>", flag)
    | .indentOnly =>
      (strL "<%\n" ++ formatJavaPrettyFallback (stripCommonIndent inner) opts.tabWidth
        ++ strL "\n%>", flag)
    | .auto =>
      let r := tryFormatJavaFragmentE pl .scriptletM (stripCommonIndent inner) flag
      (match r.1 with
        | some j => strL "<%\n" ++ j ++ strL "\n%>"
        | none => strL "<%\n"
            ++ formatJavaPrettyFallback (stripCommonIndent inner) opts.tabWidth
            ++ strL "\n%>", r.2)

/-- Markup test on segments. -/
def isHtmlSeg : Seg → Bool
  | .html _ => true
  | _ => false

/-- The marker-substituted working buffer: markup text verbatim, a fresh
numbered marker for every other segment, in order. -/
def buildBuffer : List Seg → Nat → List Char
  | [], _ => []
  | .html t :: rest, n => t ++ buildBuffer rest n
  | _ :: rest, n => placeholderOf n ++ buildBuffer rest (n + 1)

/-- The splice loop: for each non-markup segment in order, compute its
block (threading the plugin flag) and splice it over its marker. -/
def spliceAll (pl : JavaPlugin) (opts : OptionsE) :
    List Seg → Nat → List Char → Bool → List Char × Bool
  | [], _, out, flag => (out, flag)
  | seg :: rest, p, out, flag =>
    let bf := segBlock pl opts seg flag
    spliceAll pl opts rest (p + 1)
      (replaceElementTokenWithBlock out (placeholderOf p) bf.1 opts.blockIndent) bf.2

/-- Embedding of `formatJspDocument` (`formatter.ts` lines 520-625).
`htmlFmt` models the external markup formatter (`none` = failure, in which
case the unformatted buffer is used).  `g` is the incoming value of the
process-wide `disableJavaPluginForThisRun` flag; the pass resets it to
`false` first (line 524).  Returns the document and the flag after the
pass. -/
def formatJspDocumentE (htmlFmt : List Char → Option (List Char)) (pl : JavaPlugin)
    (_g : Bool) (input : List Char) (opts : OptionsE) : List Char × Bool :=
  let segments := splitIntoSegments input
  let htmlBuffer := buildBuffer segments 0
  let formattedHtml := (htmlFmt htmlBuffer).getD htmlBuffer
  spliceAll pl opts (segments.filter (fun s => !isHtmlSeg s)) 0 formattedHtml false

/-- C9: plugin short-circuit and per-pass reset.  (1) The pass output is
independent of the incoming process-wide flag — it is reset at the start of
every pass.  (2) With the flag set, `tryFormatJavaFragment` returns `null`
at once and leaves the flag set, for every plugin — the collaborator is not
consulted.  (3) A failing import sets the flag, and (4) so does a failing
format call.  (5, 6) With the flag set, an auto-mode scriptlet or
declaration segment is rendered with the fallback reformatter, and (7) no
segment ever resets a set flag within a pass. -/
theorem C9_plugin_short_circuit_and_reset :
    (∀ (g g' : Bool) (hf : List Char → Option (List Char)) (pl : JavaPlugin)
        (input : List Char) (opts : OptionsE),
      formatJspDocumentE hf pl g input opts = formatJspDocumentE hf pl g' input opts)
    ∧ (∀ (pl : JavaPlugin) (mode : JMode) (code : List Char),
      tryFormatJavaFragmentE pl mode code true = (none, true))
    ∧ (∀ (fmt : List Char → Option (List Char)) (mode : JMode) (code : List Char),
      tryFormatJavaFragmentE ⟨false, fmt⟩ mode code false = (none, true))
    ∧ (∀ (code : List Char),
      tryFormatJavaFragmentE ⟨true, fun _ => none⟩ .scriptletM code false = (none, true))
    ∧ (∀ (pl : JavaPlugin) (raw inner : List Char) (tw bi : Nat) (ut : Bool),
      segBlock pl ⟨tw, ut, .auto, bi⟩ (.scriptlet raw inner) true
        = (strL "<%\n" ++ formatJavaPrettyFallback (stripCommonIndent inner) tw
            ++ strL "\n%>", true))
    ∧ (∀ (pl : JavaPlugin) (raw inner : List Char) (tw bi : Nat) (ut : Bool),
      segBlock pl ⟨tw, ut, .auto, bi⟩ (.declSeg raw inner) true
        = (strL "<%!\n" ++ formatJavaPrettyFallback (stripCommonIndent inner) tw
            ++ strL "\n%>", true))
    ∧ (∀ (pl : JavaPlugin) (opts : OptionsE) (seg : Seg),
      (segBlock pl opts seg true).2 = true) := by
  refine ⟨fun g g' hf pl input opts => rfl,
    fun pl mode code => rfl,
    fun fmt mode code => rfl,
    fun code => rfl,
    fun pl raw inner tw bi ut => rfl,
    fun pl raw inner tw bi ut => rfl,
    fun pl opts seg => ?_⟩
  obtain ⟨tw, ut, jf, bi⟩ := opts
  cases seg with
  | html t => rfl
  | directive r i => rfl
  | exprSeg r i => rfl
  | declSeg r i => cases jf <;> rfl
  | scriptlet r i => cases jf <;> rfl

/-- C8 counterexample (end-to-end consequence): format the document
`<% a %><% b %>` — two code blocks with no markup between them — with the
markup formatter failing (so the raw marker buffer is used, both markers on
one line) and `indent-only` code formatting.  Splicing the first block
replaces the whole shared line, destroying the second marker; the second
splice is a no-op and the final output contains only the first block.  The
two blocks are not rendered on separate lines: the second block is dropped
entirely. -/
theorem C8_adjacent_blocks_lost_counterexample :
    (formatJspDocumentE (fun _ => none) ⟨false, fun _ => none⟩ false
        (strL "<% a %><% b %>") ⟨2, false, .indentOnly, 2⟩).1
        = strL "<%\n  a\n%>"
      ∧ containsSub (strL "b")
          ((formatJspDocumentE (fun _ => none) ⟨false, fun _ => none⟩ false
            (strL "<% a %><% b %>") ⟨2, false, .indentOnly, 2⟩).1) = false :=
  ⟨by decide, by decide⟩

end JspFmt
